import Mathlib

/-!
Shallow embedding of the cottage-village scraping pipeline of this repository
(`parse_cottage_villages.py`, with one function from the sibling
`parse_cottage_ru.py`), together with proofs settling the frozen claims about
its specification.

Modelling conventions.

* A Python dict record is an association list `Record := List (String × PyVal)`
  of field name to value; `rget` returns `none` for a missing key (Python
  `dict.get` returning `None`) and `rset` is dict assignment.
* Python truthiness of a field (`if village.get(f):`) is `truthy`: missing and
  `None` are falsy, a string is truthy iff nonempty, an int iff nonzero.
* Machine strings are Lean `String`s; lengths count codepoints exactly as
  Python `len`.  `str.lower()` / `str.strip()` / `\w` / `\s` / `str.isdigit()`
  are modelled for the character repertoire the program actually processes
  (ASCII plus the Russian Cyrillic block А-Я/а-я/Ё/ё); on characters outside
  that repertoire the model leaves case unchanged.
* The concrete regular expressions of the program are hand-compiled to small
  total matchers (`RTok` token lists and a few bespoke searchers) with
  Python `re.search` leftmost-match semantics.  For every pattern appearing in
  the program, each optional/greedy piece is followed by a piece whose first
  character cannot belong to the optional/greedy class, so greedy matching
  without backtracking coincides with Python's backtracking semantics.
* Calling `.lower()` on an `int` raises `TypeError` in Python; the model
  instead renders the int as its decimal string.  Theorems that depend on this
  corner carry a `WFrec` hypothesis restricting the name/address/status fields
  to strings, which is the only regime in which the Python code runs to
  completion.
* I/O effects (HTTP fetch, BeautifulSoup queries, Selenium) are passed as
  explicit inputs: the detail-page text, the texts of the phone/email blocks,
  the list of external hrefs, and the optional Selenium phone result.
-/

set_option maxHeartbeats 1000000

/-- A Python scalar stored in a record: the program only ever stores strings
and ints in the village dicts. -/
inductive PyVal where
  | vStr (s : String)
  | vInt (n : Int)
deriving DecidableEq, Repr

/-- A village record: a Python dict from field name to value. -/
abbrev Record := List (String × PyVal)

/-- `dict.get(f)`: first binding wins, `none` when the key is absent. -/
def rget : Record → String → Option PyVal
  | [], _ => none
  | (g, y) :: rest, f => if g = f then some y else rget rest f

/-- `dict[f] = x`: replace the (first) binding in place, else append. -/
def rset : Record → String → PyVal → Record
  | [], f, x => [(f, x)]
  | (g, y) :: rest, f, x => if g = f then (f, x) :: rest else (g, y) :: rset rest f x

/-- Python truthiness of `dict.get(f)`: `None` and missing are falsy, a string
is truthy iff nonempty, an int iff nonzero. -/
def truthy : Option PyVal → Bool
  | none => false
  | some (.vStr s) => s ≠ ""
  | some (.vInt n) => n ≠ 0

/-- ASCII decimal digit (Python `str.isdigit` / `\d` on the program's data). -/
def pyIsDigit (c : Char) : Bool := 48 ≤ c.toNat ∧ c.toNat ≤ 57

/-- Python `\s` (whitespace) for the program's character repertoire. -/
def pyIsSpace (c : Char) : Bool :=
  c = ' ' ∨ c = '\t' ∨ c = '\n' ∨ c = '\r' ∨ c = '\x0b' ∨ c = '\x0c'

/-- Python `str.lower()` on ASCII letters and the Russian Cyrillic block. -/
def pyLower (c : Char) : Char :=
  if 65 ≤ c.toNat ∧ c.toNat ≤ 90 then Char.ofNat (c.toNat + 32)
  else if 0x410 ≤ c.toNat ∧ c.toNat ≤ 0x42F then Char.ofNat (c.toNat + 32)
  else if c.toNat = 0x401 then Char.ofNat 0x451
  else c

/-- Python `\w` (word character) for the program's repertoire: ASCII
alphanumerics, underscore, and Russian Cyrillic letters. -/
def pyIsWord (c : Char) : Bool :=
  pyIsDigit c ∨ (97 ≤ c.toNat ∧ c.toNat ≤ 122) ∨ (65 ≤ c.toNat ∧ c.toNat ≤ 90) ∨
    c = '_' ∨ (0x410 ≤ c.toNat ∧ c.toNat ≤ 0x44F) ∨ c.toNat = 0x401 ∨ c.toNat = 0x451

/-- Python `str.strip()` on a character list. -/
def stripL (cs : List Char) : List Char :=
  ((cs.dropWhile pyIsSpace).reverse.dropWhile pyIsSpace).reverse

/-- Python `str.strip()`. -/
def pyStrip (s : String) : String := ⟨stripL s.toList⟩

/-- Python `str.lower()`. -/
def pyLowerS (s : String) : String := ⟨s.toList.map pyLower⟩

/-- `re.sub(r'\s+', ' ', ·)`: collapse each whitespace run to one space. -/
def collapseWs (cs : List Char) : List Char :=
  cs.foldr
    (fun c acc =>
      if pyIsSpace c then
        match acc with
        | ' ' :: _ => acc
        | _ => ' ' :: acc
      else c :: acc) []

/-- Python `str.isdigit()` on ASCII data: nonempty and all digits. -/
def isDigits (s : String) : Bool := s.toList ≠ [] ∧ s.toList.all pyIsDigit

/-- Decimal value of a digit list. -/
def natOfDigits (cs : List Char) : Nat :=
  cs.foldl (fun n c => n * 10 + (c.toNat - 48)) 0

/-- Substring test (`pat in hay` / an unanchored `re.search` of a literal). -/
def hasSub (pat : List Char) : List Char → Bool
  | [] => pat.isPrefixOf []
  | c :: rest => pat.isPrefixOf (c :: rest) ∨ hasSub pat rest

/-- Case-insensitive substring test over the modelled repertoire (the way the
program combines `re.I` with lowercase literal patterns). -/
def hasSubCI (pat : String) (hay : String) : Bool :=
  hasSub (pat.toList.map pyLower) (hay.toList.map pyLower)

/-- Any of the literal alternatives occurs (an alternation of literals under
`re.search`, used only where the match position is irrelevant). -/
def hasAnyCI (pats : List String) (hay : String) : Bool :=
  pats.any (fun p => hasSubCI p hay)

/-- The decimal digit character for `d < 10`. -/
def digitChar10 (d : Nat) : Char := Char.ofNat (48 + d)

/-- Decimal rendering of a natural number (fuel-based so that it is
structurally recursive; `natRepr` supplies enough fuel). -/
def natReprAux : Nat → Nat → List Char
  | 0, _ => []
  | fuel + 1, m => if m < 10 then [digitChar10 m] else natReprAux fuel (m / 10) ++ [digitChar10 (m % 10)]

/-- Decimal rendering of a natural number, as Python `str` produces it. -/
def natRepr (m : Nat) : List Char := natReprAux (m + 1) m

/-- Python `str(n)` for an int. -/
def intRepr (n : Int) : String :=
  if n < 0 then ⟨'-' :: natRepr n.natAbs⟩ else ⟨natRepr n.toNat⟩

/-- Rendering a value into a CSV cell (`csv` writes `str(x)`, `None` and a
missing key as the empty cell). -/
def renderVal : Option PyVal → String
  | none => ""
  | some (.vStr s) => s
  | some (.vInt n) => intRepr n

/-- The string the Python code observes for a field it treats as text
(`village.get(f, '')`); ints are rendered (see the module comment). -/
def rgetS (v : Record) (f : String) : String := renderVal (rget v f)

/-- The fixed CSV column schema `FIELDS` of `parse_cottage_villages.py`. -/
def FIELDS : List String := [
  "ID", "Название поселка", "Регион", "Город/Район", "Адрес", "Координаты", "Ссылка на источник",
  "Количество домов/участков", "Статус поселка", "Наличие ограждения", "Наличие КПП",
  "Количество КПП", "Наличие охраны", "Тип охраны", "Наличие интернета",
  "Тип управления", "Название УК/ТСЖ", "ФИО председателя/руководителя", "Телефон основной",
  "Телефон дополнительный", "Email", "Сайт поселка/УК", "Социальные сети",
  "Challenges (Проблемы)", "Authority (Полномочия)", "Money (Бюджет)", "Priority (Приоритет)",
  "Оценка целевого клиента",
  "Статус в CRM", "ID сделки в CRM", "Менеджер", "Дата первого контакта",
  "Дата последнего контакта", "Следующий контакт", "Комментарии",
  "Результат", "Дата продажи", "Сумма сделки", "Причина отказа",
  "Источник информации", "Дата добавления в базу", "Дата последнего обновления", "Кто добавил"]

/-- Completeness-score fields of the merge inside `save_results`. -/
def scoreFieldsSave : List String :=
  ["Адрес", "Телефон основной", "Email", "Количество домов/участков", "Ссылка на источник"]

/-- Completeness-score fields of the in-run merge inside `run` (note: no
`Ссылка на источник`). -/
def scoreFieldsRun : List String :=
  ["Адрес", "Телефон основной", "Email", "Количество домов/участков"]

/-- Completeness score: how many of the given fields are non-empty. -/
def scoreOf (v : Record) (flds : List String) : Nat :=
  flds.countP (fun f => truthy (rget v f))

/-- One step of the back-fill loop `for field in FIELDS: if not existing.get(field)
and village.get(field): existing[field] = village[field]`. -/
def bfStep (v : Record) (e : Record) (f : String) : Record :=
  match rget v f with
  | some x => if truthy (some x) ∧ ¬ truthy (rget e f) then rset e f x else e
  | none => e

/-- Back-fill the empty fields of `e` from the non-empty fields of `v`. -/
def backfill (e v : Record) : Record := FIELDS.foldl (bfStep v) e

/-- A dedup key: `(name_normalized, address)` when the processed address is
nonempty, else the 1-tuple `(name_normalized,)`. -/
inductive DKey where
  | one (n : String)
  | two (n a : String)
deriving DecidableEq, Repr

/-- `name.lower().strip()` then `re.sub(r'[^\w\s]','',·)` then
`re.sub(r'\s+',' ',·).strip()` applied to the record's name. -/
def nameNorm (v : Record) : String :=
  let nm := stripL ((rgetS v "Название поселка").toList.map pyLower)
  ⟨stripL (collapseWs (nm.filter (fun c => pyIsWord c ∨ pyIsSpace c)))⟩

/-- `village.get('Адрес','').lower().strip() if village.get('Адрес') else ''`. -/
def addrKey (v : Record) : String :=
  if truthy (rget v "Адрес") then pyStrip (pyLowerS (rgetS v "Адрес")) else ""

/-- The dedup key of a record. -/
def recKey (v : Record) : DKey :=
  let a := addrKey v
  if a = "" then .one (nameNorm v) else .two (nameNorm v) a

/-- Lookup in the `unique_results` dict. -/
def dfind : List (DKey × Record) → DKey → Option Record
  | [], _ => none
  | (k', r) :: rest, k => if k' = k then some r else dfind rest k

/-- Dict assignment `unique_results[key] = village`: update in place, else
append (Python dict insertion order). -/
def dset : List (DKey × Record) → DKey → Record → List (DKey × Record)
  | [], k, r => [(k, r)]
  | (k', r') :: rest, k, r => if k' = k then (k, r) :: rest else (k', r') :: dset rest k r

/-- The shared merge step of both dedup loops: a new same-key record replaces
the kept one when strictly more complete, otherwise the kept record is
back-filled from it. -/
def dedupInsert (d : List (DKey × Record)) (k : DKey) (v : Record)
    (flds : List String) : List (DKey × Record) :=
  match dfind d k with
  | none => dset d k v
  | some ex => if scoreOf ex flds < scoreOf v flds then dset d k v
               else dset d k (backfill ex v)

/-- House-count value used by `assess_target_client`: a digit string parses,
any other string counts as 0, an int is itself (the field is checked truthy
before this runs). -/
def houseNumOf : PyVal → Int
  | .vStr s => if isDigits s then (natOfDigits s.toList : Int) else 0
  | .vInt n => n

/-- `assess_target_client`: the five-point rubric and its thresholds. A status
stored as an int would make Python raise (`.lower()` on int); such records are
excluded by the `WFrec` hypotheses of the general theorems. -/
def assess_target_client (v : Record) : String :=
  let s1 : Nat :=
    match rget v "Количество домов/участков" with
    | some x => if truthy (some x) ∧ 20 ≤ houseNumOf x then 1 else 0
    | none => 0
  let s2 := s1 + (if rget v "Наличие ограждения" = some (.vStr "Да") then 1 else 0)
  let s3 := s2 + (if rget v "Наличие КПП" = some (.vStr "Да") then 1 else 0)
  let s4 := s3 + (if rget v "Наличие охраны" = some (.vStr "Да") then 1 else 0)
  let s5 := s4 +
    (match rget v "Статус поселка" with
     | some (.vStr s) => if s ≠ "" ∧ hasSub "построен".toList (pyLowerS s).toList then 1 else 0
     | _ => 0)
  if 4 ≤ s5 then "Целевой" else if 2 ≤ s5 then "Требует проверки" else "Нецелевой"

/-- The house-count point of the rubric, as a function of the field value. -/
def housesPt (o : Option PyVal) : Nat :=
  match o with
  | some x => if truthy (some x) ∧ 20 ≤ houseNumOf x then 1 else 0
  | none => 0

/-- A yes/no point of the rubric (`== 'Да'`), as a function of the field value. -/
def daPt (o : Option PyVal) : Nat := if o = some (.vStr "Да") then 1 else 0

/-- The built-status point of the rubric, as a function of the field value. -/
def statusPt (o : Option PyVal) : Nat :=
  match o with
  | some (.vStr s) => if s ≠ "" ∧ hasSub "построен".toList (pyLowerS s).toList then 1 else 0
  | _ => 0

/-- Parsing of an incoming record's `ID` in the main loop of `save_results`:
the id is kept iff it is truthy and parses to a nonzero int (a digit string or
a nonzero int); everything else gets a fresh id. -/
def parseId : Option PyVal → Option Int
  | none => none
  | some (.vStr s) =>
      if s = "" then none
      else if isDigits s then
        (if (natOfDigits s.toList : Int) = 0 then none else some (natOfDigits s.toList))
      else none
  | some (.vInt n) => if n = 0 then none else some n

/-- Parsing of an existing row's `ID` in the `max_id` pre-scan: a truthy
non-digit string contributes `0` (a no-op under `max`), otherwise as in
`parseId`. -/
def scanId : Option PyVal → Option Int
  | none => none
  | some (.vStr s) =>
      if s = "" then none
      else some (if isDigits s then (natOfDigits s.toList : Int) else 0)
  | some (.vInt n) => if n = 0 then none else some n

/-- `max_id` computed over the existing rows before the main loop. -/
def maxIdInit (existing : List Record) : Int :=
  existing.foldl
    (fun m v => match scanId (rget v "ID") with
      | some n => max m n
      | none => m) 0

/-- The sort key `get_id` used when rewriting the file. -/
def get_id (v : Record) : Int :=
  match rget v "ID" with
  | none => 0
  | some (.vStr s) => if isDigits s then (natOfDigits s.toList : Int) else 0
  | some (.vInt n) => n

/-- The lead-score stamp applied to every record at the top of the
`save_results` loop. -/
def stampLead (v : Record) : Record :=
  rset v "Оценка целевого клиента" (.vStr (assess_target_client v))

/-- One iteration of the main loop of `save_results`: stamp the lead score,
keep or assign the id, then dedup-merge under the record's key using the
five-field completeness score. -/
def saveStep (st : Int × List (DKey × Record)) (v : Record) : Int × List (DKey × Record) :=
  let v1 := stampLead v
  match parseId (rget v1 "ID") with
  | some n => (max st.1 n, dedupInsert st.2 (recKey v1) v1 scoreFieldsSave)
  | none =>
      let v2 := rset v1 "ID" (.vInt (st.1 + 1))
      (st.1 + 1, dedupInsert st.2 (recKey v2) v2 scoreFieldsSave)

/-- Stable insertion into a sorted list (≤ keeps the inserted, earlier
element in front on ties, matching Python's stable `sorted`). -/
def insSorted (le : Record → Record → Bool) (x : Record) : List Record → List Record
  | [] => [x]
  | y :: ys => if le x y then x :: y :: ys else y :: insSorted le x ys

/-- Stable sort (Python `sorted(..., key=get_id)`), as a structurally
recursive insertion sort. -/
def sortBy (le : Record → Record → Bool) (l : List Record) : List Record :=
  l.foldr (insSorted le) []

/-- `save_results(existing⊕new)`: `none` models the early return that leaves
the CSV file untouched when there are no in-memory results; otherwise the
returned list is the full sequence of rows rewritten to the file. -/
def save_results (existing newRecs : List Record) : Option (List Record) :=
  if newRecs = [] then none
  else
    let d := ((existing ++ newRecs).foldl saveStep (maxIdInit existing, [])).2
    some (sortBy (fun a b => decide (get_id a ≤ get_id b)) (d.map (·.2)))

/-- A written CSV row: every `FIELDS` column rendered
(`csv.DictWriter(f, fieldnames=FIELDS, extrasaction='ignore')`). -/
def renderRow (v : Record) : List String := FIELDS.map (fun f => renderVal (rget v f))

/-- Reading a written row back with `csv.DictReader`: every schema field
becomes the string that was written. -/
def csvRound (v : Record) : Record := FIELDS.map (fun f => (f, PyVal.vStr (renderVal (rget v f))))

/-- One iteration of the duplicate-removal loop in `run`: records whose
normalized name is empty are dropped; the merge uses the four-field
completeness score. -/
def runStep (d : List (DKey × Record)) (v : Record) : List (DKey × Record) :=
  if nameNorm v = "" then d
  else dedupInsert d (recKey v) v scoreFieldsRun

/-- The in-run deduplication (`run`, duplicate-removal block): the record list
that becomes `self.results`. -/
def run_merge (vs : List Record) : List Record := (vs.foldl runStep []).map (·.2)

/-- In-run dedup then save to an empty file, rendered as CSV rows: the
"merge then persist" composite that the algebraic claims quantify over. -/
def mergeAndSave (vs : List Record) : Option (List (List String)) :=
  (save_results [] (run_merge vs)).map (List.map renderRow)

/-- The pairwise merge rule as the specification words it ("keep the
higher-scoring record wholesale; for a tie, keep the first-seen but back-fill
its empty fields"), for comparison against the code's rule. -/
def specMergeKeep (flds : List String) (e v : Record) : Record :=
  if scoreOf e flds < scoreOf v flds then v
  else if scoreOf v flds < scoreOf e flds then e
  else backfill e v

/-- Tokens of the hand-compiled regular expressions (see module comment for
why greedy matching without backtracking is exact for these patterns). -/
inductive RTok where
  | lit (p : List Char)
  | optc (f : Char → Bool)
  | cls (f : Char → Bool)
  | rep (f : Char → Bool) (n : Nat)
  | wsStar
  | clsPlus (f : Char → Bool)
  | alt (ps : List (List Char))

/-- Match a token list at the start of `cs`; returns (consumed, rest). -/
def matchToks : List RTok → List Char → Option (List Char × List Char)
  | [], cs => some ([], cs)
  | .lit p :: ts, cs =>
      if p.isPrefixOf cs then (matchToks ts (cs.drop p.length)).map (fun pr => (p ++ pr.1, pr.2))
      else none
  | .optc f :: ts, cs =>
      match cs with
      | c :: rest => if f c then (matchToks ts rest).map (fun pr => (c :: pr.1, pr.2))
                     else matchToks ts (c :: rest)
      | [] => matchToks ts []
  | .cls f :: ts, cs =>
      match cs with
      | c :: rest => if f c then (matchToks ts rest).map (fun pr => (c :: pr.1, pr.2)) else none
      | [] => none
  | .rep f n :: ts, cs =>
      let t := cs.take n
      if t.length = n ∧ t.all f then (matchToks ts (cs.drop n)).map (fun pr => (t ++ pr.1, pr.2))
      else none
  | .wsStar :: ts, cs =>
      let t := cs.takeWhile pyIsSpace
      (matchToks ts (cs.drop t.length)).map (fun pr => (t ++ pr.1, pr.2))
  | .clsPlus f :: ts, cs =>
      let t := cs.takeWhile f
      if t = [] then none
      else (matchToks ts (cs.drop t.length)).map (fun pr => (t ++ pr.1, pr.2))
  | .alt ps :: ts, cs =>
      match ps.find? (fun p => p.isPrefixOf cs) with
      | some p => (matchToks ts (cs.drop p.length)).map (fun pr => (p ++ pr.1, pr.2))
      | none => none

/-- `re.search`: the consumed text of the leftmost match. -/
def searchFirst (ts : List RTok) : List Char → Option (List Char)
  | [] => (matchToks ts []).map (·.1)
  | c :: rest =>
      match matchToks ts (c :: rest) with
      | some pr => some pr.1
      | none => searchFirst ts rest

/-- `re.search` of a pattern anchored at the end (`...$`). -/
def searchEndHas (ts : List RTok) : List Char → Bool
  | [] => (matchToks ts []).elim false (fun pr => pr.2.isEmpty)
  | c :: rest =>
      (matchToks ts (c :: rest)).elim false (fun pr => pr.2.isEmpty) ∨ searchEndHas ts rest

/-- Unanchored search for `a\s*b`. -/
def subWs (a b : String) (cs : List Char) : Bool :=
  (searchFirst [.lit a.toList, .wsStar, .lit b.toList] cs).isSome

/-- Unanchored search for `a\s*b\s*c`. -/
def subWs3 (a b c : String) (cs : List Char) : Bool :=
  (searchFirst [.lit a.toList, .wsStar, .lit b.toList, .wsStar, .lit c.toList] cs).isSome

/-- Lowercase Russian Cyrillic letter (the class `[а-яё]`). -/
def cyrLow (c : Char) : Bool := (0x430 ≤ c.toNat ∧ c.toNat ≤ 0x44F) ∨ c.toNat = 0x451

/-- The denylist of `validate_village_name` applied to the lowercased,
stripped candidate (each entry one `re.search(..., re.I)`). -/
def denyMatch (nl : String) : Bool :=
  let cs := nl.toList
  subWs "ещё" "фото" cs ∨ subWs "первичная" "продажа" cs ∨
  hasSub "продажа".toList cs ∨ hasSub "фото".toList cs ∨
  hasSub "подробнее".toList cs ∨ subWs "читать" "далее" cs ∨
  hasSub "смотреть".toList cs ∨ hasSub "клик".toList cs ∨
  hasSub "нажмите".toList cs ∨ hasSub "подробности".toList cs ∨
  (cs ≠ [] ∧ cs.all pyIsDigit) ∨
  (cs ≠ [] ∧ cs.length ≤ 2 ∧ cs.all cyrLow) ∨
  subWs3 "коттеджные" "посёлки" "в" cs ∨
  subWs3 "коттеджные" "поселки" "в" cs ∨
  subWs3 "поселки" "в" "области" cs ∨
  searchEndHas [.lit "коттеджные".toList, .wsStar, .lit "поселки".toList] cs

/-- The banned exact generic phrases of `validate_village_name`. -/
def bannedExact : List String := ["коттеджные посёлки", "коттеджные поселки", "поселки", "кп"]

/-- `VillageParser.validate_village_name`. -/
def validate_village_name (name : String) : Bool :=
  if name = "" ∨ (pyStrip name).length < 3 then false
  else
    let nl := pyStrip (pyLowerS name)
    if denyMatch nl then false
    else if (pyStrip name).length < 5 then false
    else if nl ∈ bannedExact then false
    else true

/-- The separator class `[- ]`. -/
def sepCl (c : Char) : Bool := c = '-' ∨ c = ' '

/-- `r'\+?7\s?\(?\d{3}\)?\s?\d{3}[- ]?\d{2}[- ]?\d{2}'`. -/
def phonePat1 : List RTok :=
  [.optc (· = '+'), .lit ['7'], .optc pyIsSpace, .optc (· = '('), .rep pyIsDigit 3,
   .optc (· = ')'), .optc pyIsSpace, .rep pyIsDigit 3, .optc sepCl, .rep pyIsDigit 2,
   .optc sepCl, .rep pyIsDigit 2]

/-- `r'\+?7\s?\d{10}'`. -/
def phonePat2 : List RTok := [.optc (· = '+'), .lit ['7'], .optc pyIsSpace, .rep pyIsDigit 10]

/-- `r'8\s?\(?\d{3}\)?\s?\d{3}[- ]?\d{2}[- ]?\d{2}'`. -/
def phonePat3 : List RTok :=
  [.lit ['8'], .optc pyIsSpace, .optc (· = '('), .rep pyIsDigit 3, .optc (· = ')'),
   .optc pyIsSpace, .rep pyIsDigit 3, .optc sepCl, .rep pyIsDigit 2, .optc sepCl,
   .rep pyIsDigit 2]

/-- `r'\d{3}[- ]?\d{3}[- ]?\d{2}[- ]?\d{2}'`. -/
def phonePat4 : List RTok :=
  [.rep pyIsDigit 3, .optc sepCl, .rep pyIsDigit 3, .optc sepCl, .rep pyIsDigit 2,
   .optc sepCl, .rep pyIsDigit 2]

/-- The ordered pattern list shared by the phone extractors. -/
def phonePats : List (List RTok) := [phonePat1, phonePat2, phonePat3, phonePat4]

/-- First pattern (in order) with a match anywhere in the text. -/
def firstMatch (pats : List (List RTok)) (cs : List Char) : Option (List Char) :=
  match pats with
  | [] => none
  | p :: rest =>
      match searchFirst p cs with
      | some m => some m
      | none => firstMatch rest cs

/-- The inline normalization of `VillageParser.extract_phone` (and of
`CottageRuParser.extract_phone`): drop `[\s\-\(\)]`, then `8...` becomes
`+7...`, and anything not starting with `+7` gets `+7` prefixed.  Note the
missing bare-leading-`7` case that `_normalize_phone` does handle. -/
def normInline (cs : List Char) : List Char :=
  let p := cs.filter (fun c => ¬(pyIsSpace c ∨ c = '-' ∨ c = '(' ∨ c = ')'))
  if p.head? = some '8' then '+' :: '7' :: p.tail
  else if ['+', '7'].isPrefixOf p then p
  else '+' :: '7' :: p

/-- `VillageParser.extract_phone`. -/
def extract_phone (text : String) : Option String :=
  if text = "" then none
  else (firstMatch phonePats text.toList).map (fun m => ⟨normInline (stripL m)⟩)

/-- The masked-number guard of `CottageRuParser.extract_phone`:
`'x-xx' in text or re.search(r'\d-[xх]\d', text, re.I)`. -/
def hasMasked (text : String) : Bool :=
  hasSub "x-xx".toList text.toList ∨
  (searchFirst [.cls pyIsDigit, .lit ['-'],
     .cls (fun c => c = 'x' ∨ c = 'X' ∨ c = 'х' ∨ c = 'Х'), .cls pyIsDigit]
     text.toList).isSome

/-- `CottageRuParser.extract_phone` (`parse_cottage_ru.py`): same patterns and
normalization, with the masked-number guard in front. -/
def cottageRu_extract_phone (text : String) : Option String :=
  if text = "" then none
  else if hasMasked text then none
  else (firstMatch phonePats text.toList).map (fun m => ⟨normInline (stripL m)⟩)

/-- `SeleniumPhoneExtractor._normalize_phone`. -/
def normalize_phone_sel (phone : String) : String :=
  if phone = "" then phone
  else
    let p := phone.toList.filter (fun c => pyIsDigit c ∨ c = '+')
    if p.head? = some '8' then ⟨'+' :: '7' :: p.tail⟩
    else if ['+', '7'].isPrefixOf p then ⟨p⟩
    else if p.head? = some '7' then ⟨'+' :: p⟩
    else ⟨'+' :: '7' :: p⟩

/-- The canonical-form predicate `^\+7\d{10}$` of the specification. -/
def matchesCanonical (s : String) : Bool :=
  let cs := s.toList
  ['+', '7'].isPrefixOf cs ∧ (cs.drop 2).length = 10 ∧ (cs.drop 2).all pyIsDigit

/-- ASCII alphanumeric. -/
def asciiAlnum (c : Char) : Bool :=
  pyIsDigit c ∨ (97 ≤ c.toNat ∧ c.toNat ≤ 122) ∨ (65 ≤ c.toNat ∧ c.toNat ≤ 90)

/-- The email local-part class `[A-Za-z0-9._%+-]`. -/
def localCl (c : Char) : Bool := asciiAlnum c ∨ c = '.' ∨ c = '_' ∨ c = '%' ∨ c = '+' ∨ c = '-'

/-- The email domain class `[A-Za-z0-9.-]`. -/
def domCl (c : Char) : Bool := asciiAlnum c ∨ c = '.' ∨ c = '-'

/-- The email TLD class `[A-Z|a-z]` (which literally contains `|`). -/
def tldCl (c : Char) : Bool := (97 ≤ c.toNat ∧ c.toNat ≤ 122) ∨ (65 ≤ c.toNat ∧ c.toNat ≤ 90) ∨ c = '|'

/-- Try TLD lengths from `tl` down to 2 (the backtracking order of
`[A-Z|a-z]{2,}\b`): accept when a word boundary follows. -/
def tldPick (tail : List Char) : Nat → Option Nat
  | 0 => none
  | 1 => none
  | t + 1 =>
      let last := (tail.take (t + 1)).getLast?
      let nxt := (tail.drop (t + 1)).head?
      if (last.elim false pyIsWord) ≠ (nxt.elim false pyIsWord) then some (t + 1)
      else
        match t with
        | 0 => none
        | u + 1 => tldPick tail (u + 1)

/-- Try dot positions from the right (the backtracking order of the greedy
`[A-Za-z0-9.-]+\.`); on success return the whole matched email. -/
def dotPick (lcl domRun afterDom : List Char) : Nat → Option (List Char)
  | 0 => none
  | k + 1 =>
      match
        (if domRun.get? (k + 1) = some '.' then
          let tail := domRun.drop (k + 2) ++ afterDom
          match tldPick tail (tail.takeWhile tldCl).length with
          | some tl => some (lcl ++ '@' :: domRun.take (k + 1) ++ '.' :: tail.take tl)
          | none => none
        else none) with
      | some r => some r
      | none => dotPick lcl domRun afterDom k

/-- Match the email pattern at the current position (`prevWord`: whether the
preceding character is a word character, for the leading `\b`). -/
def emailAt (prevWord : Bool) (cs : List Char) : Option (List Char) :=
  let lcl := cs.takeWhile localCl
  match lcl.head? with
  | none => none
  | some c0 =>
      if prevWord = pyIsWord c0 then none
      else
        match cs.drop lcl.length with
        | '@' :: rest2 =>
            let domRun := rest2.takeWhile domCl
            dotPick lcl domRun (rest2.drop domRun.length) (domRun.length - 1)
        | _ => none

/-- Leftmost email match. -/
def emailSearch : Bool → List Char → Option (List Char)
  | _, [] => none
  | pw, c :: rest =>
      match emailAt pw (c :: rest) with
      | some m => some m
      | none => emailSearch (pyIsWord c) rest

/-- `VillageParser.extract_email`. -/
def extract_email (text : String) : Option String :=
  if text = "" then none
  else (emailSearch false text.toList).map (fun m => ⟨m⟩)

/-- The class `[:\s]`. -/
def colonWs (c : Char) : Bool := c = ':' ∨ pyIsSpace c

/-- Match `pre`, then a captured greedy `(\d+)`, then `post`, at the start of
`cs`; returns the captured number. -/
def matchCapAt (pre post : List RTok) (cs : List Char) : Option Nat :=
  match matchToks pre cs with
  | none => none
  | some pr =>
      let ds := pr.2.takeWhile pyIsDigit
      if ds = [] then none
      else
        match matchToks post (pr.2.drop ds.length) with
        | some _ => some (natOfDigits ds)
        | none => none

/-- `re.search` of a one-capture numeric pattern: leftmost match's number. -/
def searchCap (pre post : List RTok) : List Char → Option Nat
  | [] => matchCapAt pre post []
  | c :: rest =>
      match matchCapAt pre post (c :: rest) with
      | some n => some n
      | none => searchCap pre post rest

/-- The keyword alternation `(?:дом|участк|коттедж|лот)`. -/
def houseKw : RTok := .alt ["дом".toList, "участк".toList, "коттедж".toList, "лот".toList]

/-- The four `houses_patterns` of `enrich_village_data`, split as
(tokens before the capture, tokens after the capture). -/
def housesPats : List (List RTok × List RTok) :=
  [([], [.wsStar, houseKw, .wsStar, .lit "в".toList, .wsStar, .lit "продаже".toList]),
   ([.lit "в".toList, .wsStar, .lit "продаже".toList, .wsStar],
    [.wsStar, houseKw]),
   ([], [.wsStar, houseKw]),
   ([.lit "количество".toList, .clsPlus colonWs], [])]

/-- First `houses_patterns` entry whose leftmost match is inside `[10, 10000]`
(an out-of-range match falls through to the next pattern, as in the code). -/
def housesFind : List (List RTok × List RTok) → List Char → Option Nat
  | [], _ => none
  | (pre, post) :: rest, cs =>
      match searchCap pre post cs with
      | some n => if 10 ≤ n ∧ n ≤ 10000 then some n else housesFind rest cs
      | none => housesFind rest cs

/-- The two `kpp_patterns`; the first match wins, with no range check. -/
def kppCountFind (cs : List Char) : Option Nat :=
  match searchCap [] [.wsStar, .lit "кпп".toList] cs with
  | some n => some n
  | none => searchCap [.lit "кпп".toList, .clsPlus colonWs] [] cs

/-- `re.search(r'огражден|забор|периметр|ограждение|защищен', ...)`. -/
def fenceRe (lp : List Char) : Bool :=
  ["огражден", "забор", "периметр", "ограждение", "защищен"].any
    (fun p => hasSub p.toList lp)

/-- `re.search(r'кпп|контрольно-пропускной|пропускной\s*пункт|контроль\s*доступа', ...)`. -/
def kppFlagRe (lp : List Char) : Bool :=
  hasSub "кпп".toList lp ∨ hasSub "контрольно-пропускной".toList lp ∨
  subWs "пропускной" "пункт" lp ∨ subWs "контроль" "доступа" lp

/-- `re.search(r'охрана|чоп|охраняем|безопасность|сторож', ...)`. -/
def secRe (lp : List Char) : Bool :=
  ["охрана", "чоп", "охраняем", "безопасность", "сторож"].any (fun p => hasSub p.toList lp)

/-- Continuation of `.*` (no newline in the gap) into a literal. -/
def gapCont (l2 : List Char) : List Char → Bool
  | [] => l2.isPrefixOf []
  | c :: rest => l2.isPrefixOf (c :: rest) ∨ (c ≠ '\n' ∧ gapCont l2 rest)

/-- `re.search(r'l1.*l2', ...)` as a Boolean. -/
def gapSearch (l1 l2 : List Char) : List Char → Bool
  | [] => l1.isPrefixOf [] ∧ gapCont l2 []
  | c :: rest =>
      (l1.isPrefixOf (c :: rest) ∧ gapCont l2 ((c :: rest).drop l1.length)) ∨
      gapSearch l1 l2 rest

/-- `re.search(r'чоп|частн.*охранн', ...)`. -/
def chopRe (lp : List Char) : Bool :=
  hasSub "чоп".toList lp ∨ gapSearch "частн".toList "охранн".toList lp

/-- `re.search(r'собственн.*охрана|внутренн.*охрана', ...)`. -/
def ownSecRe (lp : List Char) : Bool :=
  gapSearch "собственн".toList "охрана".toList lp ∨
  gapSearch "внутренн".toList "охрана".toList lp

/-- `re.search(r'построен|заселен|сдан|эксплуат', ...)`. -/
def builtRe (lp : List Char) : Bool :=
  ["построен", "заселен", "сдан", "эксплуат"].any (fun p => hasSub p.toList lp)

/-- `re.search(r'сдача\s*в\s*\d{4}|строительств|возводится', ...)`. -/
def constrRe (lp : List Char) : Bool :=
  (searchFirst [.lit "сдача".toList, .wsStar, .lit "в".toList, .wsStar, .rep pyIsDigit 4]
    lp).isSome ∨
  hasSub "строительств".toList lp ∨ hasSub "возводится".toList lp

/-- `re.search(r'интернет|wi-fi|wifi|подключен.*интернет', ...)`. -/
def internetRe (lp : List Char) : Bool :=
  hasSub "интернет".toList lp ∨ hasSub "wi-fi".toList lp ∨ hasSub "wifi".toList lp ∨
  gapSearch "подключен".toList "интернет".toList lp

/-- Case-insensitive literal test at the start of `cs` (modelled repertoire). -/
def ciPrefix (p : List Char) (cs : List Char) : Bool := (cs.take p.length).map pyLower = p

/-- Russian Cyrillic letter of either case (the `re.I` closure of `[А-ЯЁ]`
and of the Cyrillic part of `[А-Яа-яё]`). -/
def cyrAny (c : Char) : Bool := cyrLow (pyLower c)

/-- The capture class `[А-Яа-яё\s«»""]` under `re.I`. -/
def ukRest (c : Char) : Bool := cyrAny c ∨ pyIsSpace c ∨ c = '«' ∨ c = '»' ∨ c = '"'

/-- `[:\s]+` then the capture `([А-ЯЁ][А-Яа-яё\s«»""]+)` (greedy). -/
def ukColonCap (cs : List Char) : Option (List Char) :=
  let ws := cs.takeWhile colonWs
  if ws = [] then none
  else
    match cs.drop ws.length with
    | c :: rest => if cyrAny c then some (c :: rest.takeWhile ukRest) else none
    | [] => none

/-- `компани[яи]?` already consumed up to `компани`: the optional `[яи]?`
then `ukColonCap`. -/
def ukAfterKompani (cs : List Char) : Option (List Char) :=
  match cs with
  | c :: rest => if pyLower c = 'я' ∨ pyLower c = 'и' then ukColonCap rest
                 else ukColonCap (c :: rest)
  | [] => none

/-- All suffixes reachable from `cs` through a newline-free `.*` gap at which
`l2` is a case-insensitive literal, suffix after `l2`, in left-to-right order. -/
def gapCapList (l2 : List Char) : List Char → List (List Char)
  | [] => if l2 = [] then [[]] else []
  | c :: rest =>
      (if ciPrefix l2 (c :: rest) then [(c :: rest).drop l2.length] else []) ++
      (if c ≠ '\n' then gapCapList l2 rest else [])

/-- First success over a candidate list. -/
def firstSomeL : List (List Char) → (List Char → Option (List Char)) → Option (List Char)
  | [], _ => none
  | x :: xs, f =>
      match f x with
      | some r => some r
      | none => firstSomeL xs f

/-- Leftmost-start search: a case-insensitive literal, then a continuation;
on continuation failure the start position advances (Python `re.search`). -/
def litCapSearch (lit : List Char) (cont : List Char → Option (List Char)) :
    List Char → Option (List Char)
  | [] => none
  | c :: rest =>
      if ciPrefix lit (c :: rest) then
        match cont ((c :: rest).drop lit.length) with
        | some cap => some cap
        | none => litCapSearch lit cont rest
      else litCapSearch lit cont rest

/-- `r'управляющ.*компани[яи]?[:\s]+(...)'`: the greedy `.*` tries the
rightmost `компани` first. -/
def uk1Search (cs : List Char) : Option (List Char) :=
  litCapSearch "управляющ".toList
    (fun s => firstSomeL (gapCapList "компани".toList s).reverse ukAfterKompani) cs

/-- `r'ук[:\s]+(...)'`. -/
def uk2Search (cs : List Char) : Option (List Char) :=
  litCapSearch "ук".toList ukColonCap cs

/-- `r'тсж[:\s]+(...)'`. -/
def uk3Search (cs : List Char) : Option (List Char) :=
  litCapSearch "тсж".toList ukColonCap cs

/-- The `uk_patterns` loop: first pattern whose stripped capture is longer
than 3 (a shorter capture falls through to the next pattern). -/
def ukPick : List (Option (List Char)) → Option String
  | [] => none
  | some cap :: rest =>
      let nm := pyStrip ⟨cap⟩
      if 3 < nm.length then some nm else ukPick rest
  | none :: rest => ukPick rest

/-- The management-company name extracted from the page. -/
def ukFind (cs : List Char) : Option String :=
  ukPick [uk1Search cs, uk2Search cs, uk3Search cs]

/-- The e-mail filter: not at the aggregator domain, not a support address. -/
def okEmail (e : String) : Bool :=
  ¬ hasSub "cian.ru".toList (pyLowerS e).toList ∧ ¬ hasSub "support".toList (pyLowerS e).toList

/-- First phone found in the phone-labelled blocks. -/
def pickPhoneFromBlocks : List String → Option String
  | [] => none
  | b :: rest =>
      match extract_phone b with
      | some p => some p
      | none => pickPhoneFromBlocks rest

/-- First acceptable e-mail found in the e-mail-labelled blocks. -/
def pickEmailFromBlocks : List String → Option String
  | [] => none
  | b :: rest =>
      match extract_email b with
      | some e => if okEmail e then some e else pickEmailFromBlocks rest
      | none => pickEmailFromBlocks rest

/-- Домены, excluded when picking the village website. -/
def excludedDomains : List String :=
  ["cian.ru", "domclick.ru", "yandex.ru", "google.com", "vk.com", "facebook.com",
   "instagram.com", "ok.ru"]

/-- First external link not pointing at an excluded domain. -/
def pickWebsite : List String → Option String
  | [] => none
  | l :: rest =>
      if excludedDomains.any (fun d => hasSub d.toList (pyLowerS l).toList) then
        pickWebsite rest
      else some l

/-- House-count enrichment (guarded by emptiness). -/
def enrichHouses (lp : List Char) (v : Record) : Record :=
  if truthy (rget v "Количество домов/участков") then v
  else
    match housesFind housesPats lp with
    | some n => rset v "Количество домов/участков" (.vInt n)
    | none => v

/-- Fence enrichment (guarded by emptiness). -/
def enrichFence (lp : List Char) (v : Record) : Record :=
  if truthy (rget v "Наличие ограждения") then v
  else if fenceRe lp then rset v "Наличие ограждения" (.vStr "Да") else v

/-- Checkpoint enrichment: guarded on the flag, but the checkpoint count is
written unguarded once the flag branch is taken. -/
def enrichKpp (lp : List Char) (v : Record) : Record :=
  if truthy (rget v "Наличие КПП") then v
  else if kppFlagRe lp then
    let v1 := rset v "Наличие КПП" (.vStr "Да")
    match kppCountFind lp with
    | some n => rset v1 "Количество КПП" (.vInt n)
    | none => v1
  else v

/-- Security enrichment: guarded on the flag, but the security type is written
unguarded once the flag branch is taken. -/
def enrichSec (lp : List Char) (v : Record) : Record :=
  if truthy (rget v "Наличие охраны") then v
  else if secRe lp then
    let v1 := rset v "Наличие охраны" (.vStr "Да")
    if chopRe lp then rset v1 "Тип охраны" (.vStr "ЧОП")
    else if ownSecRe lp then rset v1 "Тип охраны" (.vStr "Собственная охрана")
    else v1
  else v

/-- Status enrichment (guarded by emptiness). -/
def enrichStatus (lp : List Char) (v : Record) : Record :=
  if truthy (rget v "Статус поселка") then v
  else if builtRe lp then rset v "Статус поселка" (.vStr "Построен и заселен")
  else if constrRe lp then rset v "Статус поселка" (.vStr "В строительстве (>80%)")
  else v

/-- Internet enrichment: written UNGUARDED whenever the page matches. -/
def enrichInternet (lp : List Char) (v : Record) : Record :=
  if internetRe lp then rset v "Наличие интернета" (.vStr "Да") else v

/-- Phone enrichment: blocks, then page text, then the Selenium fallback. -/
def enrichPhone (page : String) (phoneBlocks : List String) (selAllowed : Bool)
    (selPhone : Option String) (v : Record) : Record :=
  if truthy (rget v "Телефон основной") then v
  else
    let v1 :=
      match pickPhoneFromBlocks phoneBlocks with
      | some p => rset v "Телефон основной" (.vStr p)
      | none => v
    let v2 :=
      if truthy (rget v1 "Телефон основной") then v1
      else
        match extract_phone page with
        | some p => rset v1 "Телефон основной" (.vStr p)
        | none => v1
    if truthy (rget v2 "Телефон основной") then v2
    else if selAllowed then
      match selPhone with
      | some p => rset v2 "Телефон основной" (.vStr p)
      | none => v2
    else v2

/-- E-mail enrichment: blocks, then page text, with the aggregator filter. -/
def enrichEmail (page : String) (emailBlocks : List String) (v : Record) : Record :=
  if truthy (rget v "Email") then v
  else
    let v1 :=
      match pickEmailFromBlocks emailBlocks with
      | some e => rset v "Email" (.vStr e)
      | none => v
    if truthy (rget v1 "Email") then v1
    else
      match extract_email page with
      | some e => if okEmail e then rset v1 "Email" (.vStr e) else v1
      | none => v1

/-- Website enrichment (guarded by emptiness). -/
def enrichWebsite (extLinks : List String) (v : Record) : Record :=
  if truthy (rget v "Сайт поселка/УК") then v
  else
    match pickWebsite extLinks with
    | some l => rset v "Сайт поселка/УК" (.vStr l)
    | none => v

/-- Management-company enrichment (guarded by emptiness). -/
def enrichUK (cs : List Char) (v : Record) : Record :=
  if truthy (rget v "Название УК/ТСЖ") then v
  else
    match ukFind cs with
    | some nm => rset v "Название УК/ТСЖ" (.vStr nm)
    | none => v

/-- `VillageParser.enrich_village_data`.  External effects are inputs: whether
the fetch succeeded, the page text, the texts of the phone- and email-labelled
blocks, the external hrefs, and the Selenium availability/result; `curDate` is
`self.current_date`.  On a failed fetch the record is returned unchanged
(the `except` path). -/
def enrich_village_data (v : Record) (fetchOk : Bool) (page : String)
    (phoneBlocks emailBlocks extLinks : List String)
    (selAllowed : Bool) (selPhone : Option String) (curDate : String) : Record :=
  if ¬ truthy (rget v "Ссылка на источник") then v
  else if ¬ fetchOk then v
  else
    let lp := page.toList.map pyLower
    let v1 := enrichHouses lp v
    let v2 := enrichFence lp v1
    let v3 := enrichKpp lp v2
    let v4 := enrichSec lp v3
    let v5 := enrichStatus lp v4
    let v6 := enrichInternet lp v5
    let v7 := enrichPhone page phoneBlocks selAllowed selPhone v6
    let v8 := enrichEmail page emailBlocks v7
    let v9 := enrichWebsite extLinks v8
    let v10 := enrichUK page.toList v9
    rset v10 "Дата последнего обновления" (.vStr curDate)

/-- The house-count value the rubric compares with 20 (0 when the field is
empty or a non-digit string). -/
def specHouseCount (v : Record) : Int :=
  match rget v "Количество домов/участков" with
  | some x => if truthy (some x) = true then houseNumOf x else 0
  | none => 0

/-- Whether the stored status contains "построен" (case-insensitively). -/
def statusContainsBuilt (v : Record) : Bool :=
  match rget v "Статус поселка" with
  | some (.vStr s) => s ≠ "" ∧ hasSub "построен".toList (pyLowerS s).toList
  | _ => false

/-- The lead-scoring rubric exactly as the specification words it: one point
per satisfied criterion. -/
def specLeadScore (v : Record) : Nat :=
  (if 20 ≤ specHouseCount v then 1 else 0) +
  (if rget v "Наличие ограждения" = some (.vStr "Да") then 1 else 0) +
  (if rget v "Наличие КПП" = some (.vStr "Да") then 1 else 0) +
  (if rget v "Наличие охраны" = some (.vStr "Да") then 1 else 0) +
  (if statusContainsBuilt v then 1 else 0)

/-- The record of the specification's scoring scenario. -/
def scenarioRecord : Record :=
  [("Название поселка", .vStr "Сосновый Бор"), ("Количество домов/участков", .vInt 25),
   ("Наличие ограждения", .vStr "Да"), ("Наличие КПП", .vStr "Да"),
   ("Наличие охраны", .vStr "Да"), ("Статус поселка", .vStr "Построен и заселен")]

/-- Well-formedness of a record for the general `save_results` theorems: the
fields the Python code calls string methods on actually hold strings (on any
other value the Python save aborts with `TypeError` before writing). -/
def WFrec (v : Record) : Prop :=
  (∀ n : Int, rget v "Название поселка" ≠ some (.vInt n)) ∧
  (∀ n : Int, rget v "Адрес" ≠ some (.vInt n)) ∧
  (∀ n : Int, rget v "Статус поселка" ≠ some (.vInt n))

/-- No field of the record holds the int `0` (whose CSV round-trip to the
string "0" flips Python truthiness); every record the pipeline builds
satisfies this, since stored counts are in `[10, 10000]`. -/
def noIntZero (v : Record) : Prop := ∀ f : String, rget v f ≠ some (.vInt 0)

/-- The id of a processed record, as `save_results` parses it. -/
def idOf (r : Record) : Option Int := parseId (rget r "ID")

/-- The fields `enrich_village_data` may legitimately touch even when already
non-empty: the update stamp, the unguarded internet flag, and the two
subfields written under their parent flag's guard only. -/
def enrichMutable : List String :=
  ["Дата последнего обновления", "Наличие интернета", "Количество КПП", "Тип охраны"]

/-- The fresh-id stamp of the `save_results` loop. -/
def stampId (v : Record) (i : Int) : Record := rset v "ID" (.vInt i)

theorem rget_rset (v : Record) (f g : String) (x : PyVal) :
    rget (rset v f x) g = if f = g then some x else rget v g := by
  induction v with
  | nil =>
      by_cases h : f = g <;> simp [rset, rget, h]
  | cons p rest ih =>
      obtain ⟨a, b⟩ := p
      by_cases haf : a = f
      · subst haf
        by_cases h : a = g <;> simp [rset, rget, h]
      · by_cases h : a = g
        · subst h
          have hfg : ¬ f = a := fun hc => haf hc.symm
          simp [rset, rget, haf, hfg]
        · simp [rset, rget, haf, h, ih]

theorem bfStep_of_vnone (v e : Record) (g : String) (h : rget v g = none) :
    bfStep v e g = e := by
  unfold bfStep; rw [h]

theorem bfStep_of_vfalsy (v e : Record) (g : String) (x : PyVal) (hv : rget v g = some x)
    (hx : truthy (some x) = false) : bfStep v e g = e := by
  unfold bfStep; rw [hv]; simp [hx]

theorem bfStep_of_etruthy (v e : Record) (g : String) (h : truthy (rget e g) = true) :
    bfStep v e g = e := by
  unfold bfStep
  cases rget v g with
  | none => rfl
  | some x => simp [h]

theorem bfStep_of_fill (v e : Record) (g : String) (x : PyVal) (hv : rget v g = some x)
    (hx : truthy (some x) = true) (he : truthy (rget e g) = false) :
    bfStep v e g = rset e g x := by
  unfold bfStep; rw [hv]; simp [hx, he]

theorem rget_bfStep_ne (v e : Record) (g f : String) (h : g ≠ f) :
    rget (bfStep v e g) f = rget e f := by
  cases hv : rget v g with
  | none => rw [bfStep_of_vnone v e g hv]
  | some x =>
      cases hx : truthy (some x) with
      | false => rw [bfStep_of_vfalsy v e g x hv hx]
      | true =>
          cases he : truthy (rget e g) with
          | true => rw [bfStep_of_etruthy v e g he]
          | false =>
              rw [bfStep_of_fill v e g x hv hx he, rget_rset]
              simp [h]

theorem rget_foldl_bfStep (v : Record) (l : List String) (hl : l.Nodup) (e : Record)
    (f : String) :
    rget (l.foldl (bfStep v) e) f =
      if f ∈ l ∧ truthy (rget e f) = false ∧ truthy (rget v f) = true then rget v f
      else rget e f := by
  induction l generalizing e with
  | nil => simp
  | cons g gs ih =>
      have hg : g ∉ gs := (List.nodup_cons.mp hl).1
      have hgs : gs.Nodup := (List.nodup_cons.mp hl).2
      simp only [List.foldl_cons]
      by_cases hgf : g = f
      · subst hgf
        cases he : truthy (rget e g) with
        | true =>
            rw [bfStep_of_etruthy v e g he, ih hgs e]
            simp [hg, he]
        | false =>
            cases hv : rget v g with
            | none =>
                rw [bfStep_of_vnone v e g hv, ih hgs e]
                simp [hg, hv, truthy]
            | some x =>
                cases hx : truthy (some x) with
                | false =>
                    rw [bfStep_of_vfalsy v e g x hv hx, ih hgs e]
                    simp [hg, hv, hx]
                | true =>
                    rw [bfStep_of_fill v e g x hv hx he, ih hgs (rset e g x)]
                    have hge : rget (rset e g x) g = some x := by simp [rget_rset]
                    simp [hg, hge, hv, he, hx]
      · have hfg : ¬ f = g := fun hc => hgf hc.symm
        rw [ih hgs (bfStep v e g), rget_bfStep_ne v e g f hgf]
        simp only [List.mem_cons, hfg, false_or]

theorem rget_backfill (e v : Record) (f : String) :
    rget (backfill e v) f =
      if f ∈ FIELDS ∧ truthy (rget e f) = false ∧ truthy (rget v f) = true then rget v f
      else rget e f := by
  have h : FIELDS.Nodup := by decide
  exact rget_foldl_bfStep v FIELDS h e f

theorem truthy_backfill (e v : Record) (f : String) :
    truthy (rget (backfill e v) f) =
      (truthy (rget e f) ∨ (f ∈ FIELDS ∧ truthy (rget v f))) := by
  rw [rget_backfill]
  by_cases h1 : f ∈ FIELDS <;> cases h2 : truthy (rget e f) <;>
    cases h3 : truthy (rget v f) <;> simp [h1, h2, h3]

theorem truthy_backfill_mono (e v : Record) (f : String) (h : truthy (rget e f) = true) :
    truthy (rget (backfill e v) f) = true := by
  rw [rget_backfill]
  have hc : ¬ (f ∈ FIELDS ∧ truthy (rget e f) = false ∧ truthy (rget v f) = true) := by
    simp [h]
  rw [if_neg hc]
  exact h

theorem scoreOf_le_backfill (e v : Record) (flds : List String) :
    scoreOf e flds ≤ scoreOf (backfill e v) flds := by
  unfold scoreOf
  apply List.countP_mono_left
  intro f _ hp
  exact truthy_backfill_mono e v f hp

theorem mem_dset_or (d : List (DKey × Record)) (k : DKey) (r : Record)
    (p : DKey × Record) (h : p ∈ dset d k r) : p ∈ d ∨ p = (k, r) := by
  induction d with
  | nil => simp [dset] at h; simp [h]
  | cons q rest ih =>
      obtain ⟨k', e⟩ := q
      by_cases hk : k' = k
      · simp [dset, hk] at h
        rcases h with h | h
        · right; simp [h]
        · left; simp [h]
      · simp [dset, hk] at h
        rcases h with h | h
        · left; simp [h]
        · rcases ih h with h' | h'
          · left; simp [h']
          · right; exact h'

theorem dset_of_not_found (d : List (DKey × Record)) (k : DKey) (r : Record)
    (h : dfind d k = none) : dset d k r = d ++ [(k, r)] := by
  induction d with
  | nil => rfl
  | cons q rest ih =>
      obtain ⟨k', e⟩ := q
      by_cases hk : k' = k
      · simp [dfind, hk] at h
      · simp [dfind, hk] at h
        simp [dset, hk, ih h]

theorem dfind_none_iff (d : List (DKey × Record)) (k : DKey) :
    dfind d k = none ↔ k ∉ d.map (·.1) := by
  induction d with
  | nil => simp [dfind]
  | cons q rest ih =>
      obtain ⟨k', e⟩ := q
      by_cases hk : k' = k
      · subst hk
        simp [dfind]
      · have hkk : k ≠ k' := fun hc => hk hc.symm
        simp [dfind, hk, ih, hkk]

theorem dkeys_dset_found (d : List (DKey × Record)) (k : DKey) (r : Record)
    (h : k ∈ d.map (·.1)) : (dset d k r).map (·.1) = d.map (·.1) := by
  induction d with
  | nil => simp at h
  | cons q rest ih =>
      obtain ⟨k', e⟩ := q
      by_cases hk : k' = k
      · simp [dset, hk]
      · have h' : k ∈ rest.map (·.1) := by
          rcases List.mem_map.mp h with ⟨p, hp, hpe⟩
          rcases List.mem_cons.mp hp with h1 | h1
          · rw [h1] at hpe
            exact absurd hpe hk
          · exact hpe ▸ List.mem_map_of_mem (·.1) h1
        simp [dset, hk, ih h']

theorem dkeys_dset_not_found (d : List (DKey × Record)) (k : DKey) (r : Record)
    (h : dfind d k = none) : (dset d k r).map (·.1) = d.map (·.1) ++ [k] := by
  rw [dset_of_not_found d k r h]
  simp

theorem length_dset_found (d : List (DKey × Record)) (k : DKey) (r : Record)
    (h : k ∈ d.map (·.1)) : (dset d k r).length = d.length := by
  have := congrArg List.length (dkeys_dset_found d k r h)
  simpa using this

theorem dfind_dset_self (d : List (DKey × Record)) (k : DKey) (r : Record) :
    dfind (dset d k r) k = some r := by
  induction d with
  | nil => simp [dset, dfind]
  | cons q rest ih =>
      obtain ⟨k', e⟩ := q
      by_cases hk : k' = k
      · simp [dset, dfind, hk]
      · simp [dset, dfind, hk, ih]

theorem dfind_dset_ne (d : List (DKey × Record)) (k k' : DKey) (r : Record)
    (h : k ≠ k') : dfind (dset d k r) k' = dfind d k' := by
  induction d with
  | nil => simp [dset, dfind, h]
  | cons q rest ih =>
      obtain ⟨a, e⟩ := q
      by_cases hk : a = k
      · subst hk
        simp [dset, dfind, h]
      · simp [dset, hk, dfind, ih]

theorem pairwise_dset (R : DKey × Record → DKey × Record → Prop)
    (d : List (DKey × Record)) (k : DKey) (r : Record)
    (hnd : (d.map (·.1)).Nodup)
    (hR : ∀ p ∈ d, p.1 ≠ k → R p (k, r) ∧ R (k, r) p)
    (hP : List.Pairwise R d) : List.Pairwise R (dset d k r) := by
  induction d with
  | nil => simp [dset]
  | cons q rest ih =>
      obtain ⟨k', e⟩ := q
      rcases List.pairwise_cons.mp hP with ⟨hhead, hrest⟩
      have hnd' : (rest.map (·.1)).Nodup := (List.nodup_cons.mp (by simpa using hnd)).2
      have hknotin : k' ∉ rest.map (·.1) := (List.nodup_cons.mp (by simpa using hnd)).1
      by_cases hk : k' = k
      · subst hk
        simp only [dset, if_pos rfl]
        apply List.pairwise_cons.mpr
        constructor
        · intro q hq
          have hq1 : q.1 ≠ k' := by
            intro hc
            apply hknotin
            rw [← hc]
            exact List.mem_map_of_mem (·.1) hq
          exact (hR q (List.mem_cons_of_mem _ hq) hq1).2
        · exact hrest
      · simp only [dset, if_neg hk]
        apply List.pairwise_cons.mpr
        constructor
        · intro q hq
          rcases mem_dset_or rest k r q hq with h | h
          · exact hhead q h
          · subst h
            exact (hR (k', e) (List.mem_cons_self _ _) hk).1
        · exact ih hnd' (fun p hp hp1 => hR p (List.mem_cons_of_mem _ hp) hp1) hrest

/-- C10: with an empty in-memory result list, `save_results` returns before
touching the CSV (`none` = no read, no re-merge, no re-score, no rewrite), so
the persisted file stays exactly as it was; cross-run self-healing and lead
rescoring therefore only happen on runs that produced at least one record. -/
theorem C10_empty_results_save_is_noop (existing : List Record) :
    save_results existing [] = none := by
  simp [save_results]

/-- C5: for every record, `assess_target_client` awards one point each for
house count ≥ 20, fence = "Да", checkpoint = "Да", security = "Да", and a
status containing "построен", classifying ≥ 4 as "Целевой", ≥ 2 as
"Требует проверки", lower as "Нецелевой"; in particular the specification's
scenario record (25 houses, three "Да" flags, status "Построен и заселен")
scores "Целевой". -/
theorem C5_lead_scoring :
    (∀ v : Record,
      assess_target_client v =
        (if 4 ≤ specLeadScore v then "Целевой"
         else if 2 ≤ specLeadScore v then "Требует проверки"
         else "Нецелевой")) ∧
    assess_target_client scenarioRecord = "Целевой" := by
  constructor
  · intro v
    have hs : (match rget v "Количество домов/участков" with
        | some x => if truthy (some x) = true ∧ 20 ≤ houseNumOf x then (1 : Nat) else 0
        | none => 0) = (if 20 ≤ specHouseCount v then 1 else 0) := by
      unfold specHouseCount
      cases hx : rget v "Количество домов/участков" with
      | none => simp
      | some x =>
          cases ht : truthy (some x) with
          | false => simp [ht]
          | true => simp [ht]
    unfold assess_target_client specLeadScore
    rw [hs]
    rcases hst : rget v "Статус поселка" with _ | x
    · simp [statusContainsBuilt, hst]
    · cases x with
      | vStr s => simp [statusContainsBuilt, hst]
      | vInt n => simp [statusContainsBuilt, hst]
  · decide

/-- C4 (failing input): on the input "74951234567" the inline normalization of
`extract_phone` misses the bare-leading-7 case that its sibling
`_normalize_phone` handles, and returns "+774951234567" — which does not match
`^\+7\d{10}$`. -/
theorem C4_extract_phone_bare7_failing_input :
    extract_phone "74951234567" = some "+774951234567" ∧
    normalize_phone_sel "74951234567" = "+74951234567" ∧
    matchesCanonical "+774951234567" = false := by
  refine ⟨by decide, by decide, by decide⟩

/-- C7: `validate_village_name` returns false for every string whose stripped
length is under 5, for every string whose lowercased trimmed form matches a
denylist pattern, and for every string whose lowercased trimmed form is one of
the banned generic phrases. -/
theorem C7_name_validator_rejections (name : String) :
    ((pyStrip name).length < 5 → validate_village_name name = false) ∧
    (denyMatch (pyStrip (pyLowerS name)) = true → validate_village_name name = false) ∧
    (pyStrip (pyLowerS name) ∈ bannedExact → validate_village_name name = false) := by
  unfold validate_village_name
  refine ⟨?_, ?_, ?_⟩ <;> intro h <;> split_ifs <;> simp_all

theorem C7_name_validator_rejections_witness :
    (denyMatch (pyStrip (pyLowerS "Подробнее")) = true ∧
      validate_village_name "Подробнее" = false) ∧
    ((pyStrip "фото").length < 5 ∧ validate_village_name "фото" = false) ∧
    (pyStrip (pyLowerS "  КП  ") ∈ bannedExact ∧ validate_village_name "  КП  " = false) :=
  ⟨⟨by decide, (C7_name_validator_rejections "Подробнее").2.1 (by decide)⟩,
   ⟨by decide, (C7_name_validator_rejections "фото").1 (by decide)⟩,
   ⟨by decide, (C7_name_validator_rejections "  КП  ").2.2 (by decide)⟩⟩

/-- C8 (counterexample): `VillageParser.extract_phone` has no masked-digit
guard: on a text that contains the masked marker "x-xx" *and* a matching
phone pattern it returns the phone, not `None` — refuting the claim for this
extractor. -/
theorem C8_counterexample_villages_extractor_ignores_mask :
    hasMasked "Тел: 8 (495) 123-45-67, доб. x-xx" = true ∧
    extract_phone "Тел: 8 (495) 123-45-67, доб. x-xx" = some "+74951234567" := by
  refine ⟨by decide, by decide⟩

/-- C8 (amended): the masked-digit skip is real but lives only in
`CottageRuParser.extract_phone` (parse_cottage_ru.py): whenever the text
contains "x-xx" or matches `\d-[xх]\d`, that extractor returns `None` even if
a phone pattern would match. -/
theorem C8_cottage_extractor_skips_masked (text : String) (h : hasMasked text = true) :
    cottageRu_extract_phone text = none := by
  unfold cottageRu_extract_phone
  by_cases ht : text = ""
  · simp [ht]
  · simp [ht, h]

theorem C8_cottage_extractor_skips_masked_witness :
    hasMasked "Тел: 8 (495) 123-45-67, доб. x-xx" = true ∧
    cottageRu_extract_phone "Тел: 8 (495) 123-45-67, доб. x-xx" = none :=
  ⟨by decide, C8_cottage_extractor_skips_masked _ (by decide)⟩

theorem rget_rset_ne (v : Record) (g f : String) (x : PyVal) (h : g ≠ f) :
    rget (rset v g x) f = rget v f := by
  rw [rget_rset]; simp [h]

theorem enrichHouses_frame (lp : List Char) (v : Record) (f : String)
    (ht : truthy (rget v f) = true) : rget (enrichHouses lp v) f = rget v f := by
  unfold enrichHouses
  by_cases hh : truthy (rget v "Количество домов/участков") = true
  · simp [hh]
  · by_cases hf : "Количество домов/участков" = f
    · subst hf
      exact absurd ht hh
    · simp only [hh, Bool.false_eq_true, if_false]
      cases housesFind housesPats lp with
      | none => rfl
      | some n => exact rget_rset_ne v _ f _ hf

theorem enrichFence_frame (lp : List Char) (v : Record) (f : String)
    (ht : truthy (rget v f) = true) : rget (enrichFence lp v) f = rget v f := by
  unfold enrichFence
  by_cases hh : truthy (rget v "Наличие ограждения") = true
  · simp [hh]
  · by_cases hf : "Наличие ограждения" = f
    · subst hf
      exact absurd ht hh
    · simp only [hh, Bool.false_eq_true, if_false]
      by_cases hre : fenceRe lp = true <;> simp [hre, rget_rset_ne v _ f _ hf]

theorem enrichStatus_frame (lp : List Char) (v : Record) (f : String)
    (ht : truthy (rget v f) = true) : rget (enrichStatus lp v) f = rget v f := by
  unfold enrichStatus
  by_cases hh : truthy (rget v "Статус поселка") = true
  · simp [hh]
  · by_cases hf : "Статус поселка" = f
    · subst hf
      exact absurd ht hh
    · simp only [hh, Bool.false_eq_true, if_false]
      by_cases h1 : builtRe lp = true
      · simp [h1, rget_rset_ne v _ f _ hf]
      · by_cases h2 : constrRe lp = true <;> simp [h1, h2, rget_rset_ne v _ f _ hf]

theorem enrichWebsite_frame (el : List String) (v : Record) (f : String)
    (ht : truthy (rget v f) = true) : rget (enrichWebsite el v) f = rget v f := by
  unfold enrichWebsite
  by_cases hh : truthy (rget v "Сайт поселка/УК") = true
  · simp [hh]
  · by_cases hf : "Сайт поселка/УК" = f
    · subst hf
      exact absurd ht hh
    · simp only [hh, Bool.false_eq_true, if_false]
      cases pickWebsite el with
      | none => rfl
      | some l => exact rget_rset_ne v _ f _ hf

theorem enrichUK_frame (cs : List Char) (v : Record) (f : String)
    (ht : truthy (rget v f) = true) : rget (enrichUK cs v) f = rget v f := by
  unfold enrichUK
  by_cases hh : truthy (rget v "Название УК/ТСЖ") = true
  · simp [hh]
  · by_cases hf : "Название УК/ТСЖ" = f
    · subst hf
      exact absurd ht hh
    · simp only [hh, Bool.false_eq_true, if_false]
      cases ukFind cs with
      | none => rfl
      | some nm => exact rget_rset_ne v _ f _ hf

theorem enrichKpp_frame (lp : List Char) (v : Record) (f : String)
    (hf2 : f ≠ "Количество КПП") (ht : truthy (rget v f) = true) :
    rget (enrichKpp lp v) f = rget v f := by
  unfold enrichKpp
  by_cases hh : truthy (rget v "Наличие КПП") = true
  · simp [hh]
  · by_cases hf : "Наличие КПП" = f
    · subst hf
      exact absurd ht hh
    · simp only [hh, Bool.false_eq_true, if_false]
      by_cases hre : kppFlagRe lp = true
      · simp only [hre, if_true]
        cases kppCountFind lp with
        | none => exact rget_rset_ne v _ f _ hf
        | some n =>
            rw [rget_rset_ne _ _ f _ (fun hc => hf2 hc.symm)]
            exact rget_rset_ne v _ f _ hf
      · simp [hre]

theorem enrichSec_frame (lp : List Char) (v : Record) (f : String)
    (hf2 : f ≠ "Тип охраны") (ht : truthy (rget v f) = true) :
    rget (enrichSec lp v) f = rget v f := by
  unfold enrichSec
  by_cases hh : truthy (rget v "Наличие охраны") = true
  · simp [hh]
  · by_cases hf : "Наличие охраны" = f
    · subst hf
      exact absurd ht hh
    · simp only [hh, Bool.false_eq_true, if_false]
      by_cases hre : secRe lp = true
      · simp only [hre, if_true]
        by_cases h1 : chopRe lp = true
        · simp only [h1, if_true]
          rw [rget_rset_ne _ _ f _ (fun hc => hf2 hc.symm)]
          exact rget_rset_ne v _ f _ hf
        · simp only [h1, Bool.false_eq_true, if_false]
          by_cases h2 : ownSecRe lp = true
          · simp only [h2, if_true]
            rw [rget_rset_ne _ _ f _ (fun hc => hf2 hc.symm)]
            exact rget_rset_ne v _ f _ hf
          · simp only [h2, Bool.false_eq_true, if_false]
            exact rget_rset_ne v _ f _ hf
      · simp [hre]

theorem enrichInternet_frame (lp : List Char) (v : Record) (f : String)
    (hf : f ≠ "Наличие интернета") : rget (enrichInternet lp v) f = rget v f := by
  unfold enrichInternet
  by_cases hre : internetRe lp = true
  · simp [hre, rget_rset_ne v _ f _ (fun hc => hf hc.symm)]
  · simp [hre]

theorem rget_enrichPhone_ne (page : String) (pb : List String) (sa : Bool)
    (sp : Option String) (v : Record) (f : String) (hf : "Телефон основной" ≠ f) :
    rget (enrichPhone page pb sa sp v) f = rget v f := by
  unfold enrichPhone
  by_cases hp : truthy (rget v "Телефон основной") = true
  · simp [hp]
  · simp only [hp, Bool.false_eq_true, if_false]
    cases hb : pickPhoneFromBlocks pb <;>
      simp only [hb] <;>
      split_ifs <;>
      cases hx : extract_phone page <;>
      simp_all [rget_rset_ne, hf] <;>
      cases sp <;>
      simp_all [rget_rset_ne, hf]

theorem enrichPhone_frame (page : String) (pb : List String) (sa : Bool)
    (sp : Option String) (v : Record) (f : String) (ht : truthy (rget v f) = true) :
    rget (enrichPhone page pb sa sp v) f = rget v f := by
  by_cases hf : "Телефон основной" = f
  · subst hf
    unfold enrichPhone
    simp [ht]
  · exact rget_enrichPhone_ne page pb sa sp v f hf

theorem rget_enrichEmail_ne (page : String) (eb : List String) (v : Record) (f : String)
    (hf : "Email" ≠ f) : rget (enrichEmail page eb v) f = rget v f := by
  unfold enrichEmail
  by_cases hp : truthy (rget v "Email") = true
  · simp [hp]
  · simp only [hp, Bool.false_eq_true, if_false]
    cases hb : pickEmailFromBlocks eb <;>
      simp only [hb] <;>
      split_ifs <;>
      cases hx : extract_email page <;>
      simp_all [rget_rset_ne, hf] <;>
      split_ifs <;>
      simp_all [rget_rset_ne, hf]

theorem enrichEmail_frame (page : String) (eb : List String) (v : Record) (f : String)
    (ht : truthy (rget v f) = true) : rget (enrichEmail page eb v) f = rget v f := by
  by_cases hf : "Email" = f
  · subst hf
    unfold enrichEmail
    simp [ht]
  · exact rget_enrichEmail_ne page eb v f hf

/-- C9 (amended): after enrichment every field outside `enrichMutable` that
was non-empty keeps its exact previous value; the exceptions are the update
stamp (always rewritten on a successful fetch), the internet flag (written
unguarded whenever the page matches), and the checkpoint-count /
security-type subfields (guarded only by their *parent* flag's emptiness). -/
theorem C9_enrich_preserves_nonempty_fields (v : Record) (fetchOk : Bool) (page : String)
    (pb eb el : List String) (sa : Bool) (sp : Option String) (cd : String) (f : String)
    (hf : f ∉ enrichMutable) (ht : truthy (rget v f) = true) :
    rget (enrich_village_data v fetchOk page pb eb el sa sp cd) f = rget v f := by
  have hfd : f ≠ "Дата последнего обновления" := by
    intro hc; exact hf (by rw [hc]; decide)
  have hfi : f ≠ "Наличие интернета" := by
    intro hc; exact hf (by rw [hc]; decide)
  have hfk : f ≠ "Количество КПП" := by
    intro hc; exact hf (by rw [hc]; decide)
  have hfs : f ≠ "Тип охраны" := by
    intro hc; exact hf (by rw [hc]; decide)
  unfold enrich_village_data
  by_cases h1 : truthy (rget v "Ссылка на источник") = true
  · rw [if_neg (by simp [h1])]
    by_cases h2 : fetchOk
    · rw [if_neg (by simp [h2])]
      have key : ∀ (S : Record → Record),
          (∀ w, truthy (rget w f) = true → rget (S w) f = rget w f) →
          ∀ w, truthy (rget w f) = true →
            (rget (S w) f = rget w f ∧ truthy (rget (S w) f) = true) := by
        intro S hS w hw
        exact ⟨hS w hw, by rw [hS w hw]; exact hw⟩
      obtain ⟨e1, t1⟩ := key _ (fun w hw => enrichHouses_frame (page.toList.map pyLower) w f hw) v ht
      obtain ⟨e2, t2⟩ := key _ (fun w hw => enrichFence_frame (page.toList.map pyLower) w f hw) _ t1
      obtain ⟨e3, t3⟩ := key _ (fun w hw => enrichKpp_frame (page.toList.map pyLower) w f hfk hw) _ t2
      obtain ⟨e4, t4⟩ := key _ (fun w hw => enrichSec_frame (page.toList.map pyLower) w f hfs hw) _ t3
      obtain ⟨e5, t5⟩ := key _ (fun w hw => enrichStatus_frame (page.toList.map pyLower) w f hw) _ t4
      obtain ⟨e6, t6⟩ := key _ (fun w _ => enrichInternet_frame (page.toList.map pyLower) w f hfi) _ t5
      obtain ⟨e7, t7⟩ := key _ (fun w hw => enrichPhone_frame page pb sa sp w f hw) _ t6
      obtain ⟨e8, t8⟩ := key _ (fun w hw => enrichEmail_frame page eb w f hw) _ t7
      obtain ⟨e9, t9⟩ := key _ (fun w hw => enrichWebsite_frame el w f hw) _ t8
      obtain ⟨e10, t10⟩ := key _ (fun w hw => enrichUK_frame page.toList w f hw) _ t9
      rw [rget_rset_ne _ _ f _ (fun hc => hfd hc.symm), e10, e9, e8, e7, e6, e5, e4, e3, e2, e1]
    · rw [if_pos (by simp [h2])]
  · rw [if_pos (by simp [h1])]

/-- C9 (counterexample): the internet-availability flag is written with no
emptiness guard — a record arriving with the non-empty value "Нет" leaves
enrichment holding "Да" whenever the page mentions internet, so a non-empty
field does not keep its previous value. -/
theorem C9_counterexample_internet_flag_overwritten :
    rget (enrich_village_data
        [("Ссылка на источник", .vStr "http://ex.ru/v"), ("Наличие интернета", .vStr "Нет")]
        true "в поселке есть интернет" [] [] [] false none "2025-06-01")
      "Наличие интернета" = some (.vStr "Да") ∧
    rget [("Ссылка на источник", .vStr "http://ex.ru/v"), ("Наличие интернета", .vStr "Нет")]
      "Наличие интернета" = some (.vStr "Нет") := by
  refine ⟨by decide, by decide⟩

theorem C9_enrich_preserves_nonempty_fields_witness :
    ("Телефон основной" ∉ enrichMutable ∧
      truthy (rget [("Ссылка на источник", PyVal.vStr "http://ex.ru/v"),
        ("Телефон основной", PyVal.vStr "+79990001122")] "Телефон основной") = true) ∧
    rget (enrich_village_data
        [("Ссылка на источник", PyVal.vStr "http://ex.ru/v"),
         ("Телефон основной", PyVal.vStr "+79990001122")]
        true "охрана и забор, звоните 8 (903) 111-22-33" [] [] [] false none "2025-06-01")
      "Телефон основной" =
      rget [("Ссылка на источник", PyVal.vStr "http://ex.ru/v"),
        ("Телефон основной", PyVal.vStr "+79990001122")] "Телефон основной" :=
  ⟨⟨by decide, by decide⟩,
   C9_enrich_preserves_nonempty_fields _ _ _ _ _ _ _ _ _ _ (by decide) (by decide)⟩

theorem recKey_rset_ne (v : Record) (g : String) (x : PyVal)
    (h1 : g ≠ "Название поселка") (h2 : g ≠ "Адрес") :
    recKey (rset v g x) = recKey v := by
  simp only [recKey, addrKey, nameNorm, rgetS, rget_rset_ne v g _ x h1,
    rget_rset_ne v g _ x h2]

theorem scoreOf_rset_ne (v : Record) (g : String) (x : PyVal) (flds : List String)
    (h : g ∉ flds) : scoreOf (rset v g x) flds = scoreOf v flds := by
  unfold scoreOf
  induction flds with
  | nil => rfl
  | cons f fs ih =>
      have hgf : g ≠ f := fun hc => h (hc ▸ List.mem_cons_self g fs)
      have hh : g ∉ fs := fun hc => h (List.mem_cons_of_mem f hc)
      simp [List.countP_cons, ih hh, rget_rset_ne v g f x hgf]

theorem recKey_stampLead (v : Record) : recKey (stampLead v) = recKey v :=
  recKey_rset_ne v _ _ (by decide) (by decide)

theorem recKey_stampId (v : Record) (i : Int) : recKey (stampId v i) = recKey v :=
  recKey_rset_ne v _ _ (by decide) (by decide)

theorem scoreOf_stampLead (v : Record) (flds : List String)
    (h : "Оценка целевого клиента" ∉ flds) : scoreOf (stampLead v) flds = scoreOf v flds :=
  scoreOf_rset_ne v _ _ flds h

theorem scoreOf_stampId (v : Record) (i : Int) (flds : List String)
    (h : "ID" ∉ flds) : scoreOf (stampId v i) flds = scoreOf v flds :=
  scoreOf_rset_ne v _ _ flds h

theorem idOf_stampLead (v : Record) : idOf (stampLead v) = idOf v := by
  unfold idOf stampLead
  rw [rget_rset_ne v _ _ _ (by decide)]

theorem idOf_stampId (v : Record) (i : Int) : idOf (stampId v i) = parseId (some (.vInt i)) := by
  unfold idOf stampId
  rw [rget_rset]
  simp

theorem nameNorm_eq_of_recKey_eq (A B : Record) (h : recKey A = recKey B) :
    nameNorm A = nameNorm B := by
  unfold recKey at h
  by_cases ha : addrKey A = "" <;> by_cases hb : addrKey B = "" <;>
    simp [ha, hb] at h <;> tauto

theorem dedupInsert_found (d : List (DKey × Record)) (k : DKey) (v : Record)
    (flds : List String) (ex : Record) (h : dfind d k = some ex) :
    dedupInsert d k v flds =
      if scoreOf ex flds < scoreOf v flds then dset d k v
      else dset d k (backfill ex v) := by
  unfold dedupInsert
  rw [h]

theorem saveStep_fresh (st : Int × List (DKey × Record)) (v : Record) (h : idOf v = none) :
    saveStep st v =
      (st.1 + 1,
       dedupInsert st.2 (recKey (stampId (stampLead v) (st.1 + 1)))
         (stampId (stampLead v) (st.1 + 1)) scoreFieldsSave) := by
  have h2 : parseId (rget (stampLead v) "ID") = none := by
    have hi := idOf_stampLead v
    unfold idOf at hi
    rw [hi]
    exact h
  unfold saveStep
  simp only [h2]
  rfl

theorem run_merge_pair (A B : Record) (hn : nameNorm A ≠ "") (hk : recKey A = recKey B) :
    run_merge [A, B] =
      [if scoreOf A scoreFieldsRun < scoreOf B scoreFieldsRun then B else backfill A B] := by
  have hnB : ¬ nameNorm B = "" := by
    rw [← nameNorm_eq_of_recKey_eq A B hk]
    exact hn
  unfold run_merge
  rw [List.foldl_cons, List.foldl_cons, List.foldl_nil]
  unfold runStep
  rw [if_neg hn, if_neg hnB]
  unfold dedupInsert
  simp only [dfind, dset, hk, if_pos rfl]
  by_cases h : scoreOf A scoreFieldsRun < scoreOf B scoreFieldsRun <;> simp [h]

theorem save_results_pair (A B : Record) (hA : idOf A = none) (hB : idOf B = none)
    (hk : recKey A = recKey B) :
    save_results [] [A, B] =
      some [if scoreOf A scoreFieldsSave < scoreOf B scoreFieldsSave
            then stampId (stampLead B) 2
            else backfill (stampId (stampLead A) 1) (stampId (stampLead B) 2)] := by
  unfold save_results
  rw [if_neg (by simp)]
  simp only [List.nil_append, maxIdInit, List.foldl_nil, List.foldl_cons]
  rw [saveStep_fresh (0, []) A hA, saveStep_fresh _ B hB]
  norm_num
  have hkey : recKey (stampId (stampLead A) 1) = recKey (stampId (stampLead B) 2) := by
    rw [recKey_stampId, recKey_stampLead, recKey_stampId, recKey_stampLead, hk]
  have hsA : scoreOf (stampId (stampLead A) 1) scoreFieldsSave = scoreOf A scoreFieldsSave := by
    rw [scoreOf_stampId _ _ _ (by decide), scoreOf_stampLead _ _ (by decide)]
  have hsB : scoreOf (stampId (stampLead B) 2) scoreFieldsSave = scoreOf B scoreFieldsSave := by
    rw [scoreOf_stampId _ _ _ (by decide), scoreOf_stampLead _ _ (by decide)]
  simp only [show dedupInsert [] (recKey (stampId (stampLead A) 1))
      (stampId (stampLead A) 1) scoreFieldsSave
      = [(recKey (stampId (stampLead A) 1), stampId (stampLead A) 1)] from rfl]
  have hfind : dfind [(recKey (stampId (stampLead A) 1), stampId (stampLead A) 1)]
      (recKey (stampId (stampLead B) 2)) = some (stampId (stampLead A) 1) := by
    simp only [dfind]
    rw [if_pos hkey]
  rw [dedupInsert_found _ _ _ _ _ hfind, hsA, hsB]
  by_cases h : scoreOf A scoreFieldsSave < scoreOf B scoreFieldsSave
  · rw [if_pos h]
    simp only [dset]
    rw [if_pos hkey]
    simp [sortBy, insSorted, h]
  · rw [if_neg h]
    simp only [dset]
    rw [if_pos hkey]
    simp [sortBy, insSorted, h]

/-- C1 (amended): for a pair of same-key records, the in-run merge scores
completeness over {address, phone, email, house_count} (no source-url) while
the save-time merge also counts source-url; in both merges an incoming record
with a strictly higher score replaces the kept record wholesale, and otherwise
— on a tie *or* when the kept record scores higher — the first-seen record is
kept with its empty fields back-filled from the incoming record. -/
theorem C1_pairwise_merge_rule (A B : Record) (hn : nameNorm A ≠ "")
    (hk : recKey A = recKey B) (hA : idOf A = none) (hB : idOf B = none) :
    run_merge [A, B] =
      [if scoreOf A scoreFieldsRun < scoreOf B scoreFieldsRun then B else backfill A B] ∧
    save_results [] [A, B] =
      some [if scoreOf A scoreFieldsSave < scoreOf B scoreFieldsSave
            then stampId (stampLead B) 2
            else backfill (stampId (stampLead A) 1) (stampId (stampLead B) 2)] :=
  ⟨run_merge_pair A B hn hk, save_results_pair A B hA hB hk⟩

theorem C1_pairwise_merge_rule_witness :
    (nameNorm [("Название поселка", PyVal.vStr "Поселок Заря"),
        ("Телефон основной", PyVal.vStr "+71112223344")] ≠ "" ∧
     recKey [("Название поселка", PyVal.vStr "Поселок Заря"),
        ("Телефон основной", PyVal.vStr "+71112223344")] =
       recKey [("Название поселка", PyVal.vStr "Поселок Заря"),
        ("Email", PyVal.vStr "a@b.ru")]) ∧
    run_merge [[("Название поселка", PyVal.vStr "Поселок Заря"),
        ("Телефон основной", PyVal.vStr "+71112223344")],
       [("Название поселка", PyVal.vStr "Поселок Заря"), ("Email", PyVal.vStr "a@b.ru")]] =
      [if scoreOf [("Название поселка", PyVal.vStr "Поселок Заря"),
            ("Телефон основной", PyVal.vStr "+71112223344")] scoreFieldsRun <
          scoreOf [("Название поселка", PyVal.vStr "Поселок Заря"),
            ("Email", PyVal.vStr "a@b.ru")] scoreFieldsRun
       then [("Название поселка", PyVal.vStr "Поселок Заря"), ("Email", PyVal.vStr "a@b.ru")]
       else backfill
         [("Название поселка", PyVal.vStr "Поселок Заря"),
          ("Телефон основной", PyVal.vStr "+71112223344")]
         [("Название поселка", PyVal.vStr "Поселок Заря"), ("Email", PyVal.vStr "a@b.ru")]] :=
  ⟨⟨by decide, by decide⟩,
   (C1_pairwise_merge_rule _ _ (by decide) (by decide) (by decide) (by decide)).1⟩

/-- C1 (counterexample): two violations of the claim as stated.  In-run: two
records tying on the claimed five-field score (one has only a source-url, the
other only a phone) do not merge into the back-filled first-seen record — the
in-run score ignores the source-url, so the second record wins wholesale and
the source-url is lost.  At save: when the first-seen record scores strictly
higher, the claim says it is kept wholesale, but the code still back-fills its
empty Email from the losing record. -/
theorem C1_counterexample :
    (scoreOf [("Название поселка", PyVal.vStr "Поселок Заря"),
        ("Ссылка на источник", PyVal.vStr "https://example.com/v1")] scoreFieldsSave =
      scoreOf [("Название поселка", PyVal.vStr "Поселок Заря"),
        ("Телефон основной", PyVal.vStr "+71234567890")] scoreFieldsSave ∧
     run_merge [[("Название поселка", PyVal.vStr "Поселок Заря"),
          ("Ссылка на источник", PyVal.vStr "https://example.com/v1")],
        [("Название поселка", PyVal.vStr "Поселок Заря"),
          ("Телефон основной", PyVal.vStr "+71234567890")]] =
       [[("Название поселка", PyVal.vStr "Поселок Заря"),
         ("Телефон основной", PyVal.vStr "+71234567890")]] ∧
     run_merge [[("Название поселка", PyVal.vStr "Поселок Заря"),
          ("Ссылка на источник", PyVal.vStr "https://example.com/v1")],
        [("Название поселка", PyVal.vStr "Поселок Заря"),
          ("Телефон основной", PyVal.vStr "+71234567890")]] ≠
       [specMergeKeep scoreFieldsSave
         [("Название поселка", PyVal.vStr "Поселок Заря"),
          ("Ссылка на источник", PyVal.vStr "https://example.com/v1")]
         [("Название поселка", PyVal.vStr "Поселок Заря"),
          ("Телефон основной", PyVal.vStr "+71234567890")]]) ∧
    (scoreOf [("Название поселка", PyVal.vStr "Поселок Заря"), ("Адрес", PyVal.vStr "Москва"),
        ("Email", PyVal.vStr "info@zarya.ru")] scoreFieldsSave <
      scoreOf [("Название поселка", PyVal.vStr "Поселок Заря"), ("Адрес", PyVal.vStr "Москва"),
        ("Телефон основной", PyVal.vStr "+71112223344"),
        ("Количество домов/участков", PyVal.vInt 30)] scoreFieldsSave ∧
     (save_results []
        [[("Название поселка", PyVal.vStr "Поселок Заря"), ("Адрес", PyVal.vStr "Москва"),
          ("Телефон основной", PyVal.vStr "+71112223344"),
          ("Количество домов/участков", PyVal.vInt 30)],
         [("Название поселка", PyVal.vStr "Поселок Заря"), ("Адрес", PyVal.vStr "Москва"),
          ("Email", PyVal.vStr "info@zarya.ru")]]).map
        (List.map (fun r => renderVal (rget r "Email"))) = some ["info@zarya.ru"]) := by
  refine ⟨⟨by decide, by decide, by decide⟩, ⟨by decide, by decide⟩⟩

theorem digitChar10_isDigit (d : Nat) (h : d < 10) : pyIsDigit (digitChar10 d) = true := by
  interval_cases d <;> decide

theorem digitChar10_val (d : Nat) (h : d < 10) : (digitChar10 d).toNat - 48 = d := by
  interval_cases d <;> decide

theorem natOfDigits_append_one (xs : List Char) (c : Char) :
    natOfDigits (xs ++ [c]) = natOfDigits xs * 10 + (c.toNat - 48) := by
  unfold natOfDigits
  rw [List.foldl_append]
  rfl

theorem natReprAux_spec : ∀ (fuel m : Nat), m < fuel →
    (natReprAux fuel m ≠ [] ∧ (natReprAux fuel m).all pyIsDigit = true ∧
     natOfDigits (natReprAux fuel m) = m) := by
  intro fuel
  induction fuel with
  | zero => intro m h; omega
  | succ f ih =>
      intro m h
      unfold natReprAux
      by_cases h10 : m < 10
      · rw [if_pos h10]
        refine ⟨by simp, ?_, ?_⟩
        · simp [digitChar10_isDigit m h10]
        · have := digitChar10_val m h10
          unfold natOfDigits
          simp only [List.foldl_cons, List.foldl_nil]
          omega
      · rw [if_neg h10]
        have hlt : m / 10 < f := by omega
        obtain ⟨r1, r2, r3⟩ := ih (m / 10) hlt
        have hm10 : m % 10 < 10 := Nat.mod_lt _ (by norm_num)
        refine ⟨by simp, ?_, ?_⟩
        · rw [List.all_append]
          simp [r2, digitChar10_isDigit _ hm10]
        · rw [natOfDigits_append_one, r3, digitChar10_val _ hm10]
          omega

theorem natRepr_spec (m : Nat) :
    natRepr m ≠ [] ∧ (natRepr m).all pyIsDigit = true ∧ natOfDigits (natRepr m) = m :=
  natReprAux_spec (m + 1) m (by omega)

theorem parseId_intRepr_pos (n : Int) (h : 0 < n) :
    parseId (some (.vStr (intRepr n))) = some n := by
  obtain ⟨h1, h2, h3⟩ := natRepr_spec n.toNat
  unfold intRepr
  rw [if_neg (by omega)]
  have hne : (⟨natRepr n.toNat⟩ : String) ≠ "" := by
    intro hc
    apply h1
    simpa using congrArg String.toList hc
  have hlist : (⟨natRepr n.toNat⟩ : String).toList = natRepr n.toNat := rfl
  have hd : isDigits ⟨natRepr n.toNat⟩ = true := by
    unfold isDigits
    rw [hlist]
    simp [h1, h2]
  simp only [parseId]
  rw [if_neg hne]
  simp only [hd, if_true, hlist, h3]
  have hnz : ((n.toNat : Int)) = n := by omega
  rw [hnz]
  simp
  omega

theorem intRepr_ne_empty (n : Int) : intRepr n ≠ "" := by
  unfold intRepr
  split
  · intro hc
    simpa using congrArg String.toList hc
  · intro hc
    exact (natRepr_spec n.toNat).1 (by simpa using congrArg String.toList hc)

theorem parseId_some_truthy (o : Option PyVal) (n : Int) (h : parseId o = some n) :
    truthy o = true := by
  cases o with
  | none => simp [parseId] at h
  | some x =>
      cases x with
      | vStr s =>
          simp only [parseId] at h
          by_cases hs : s = ""
          · rw [if_pos hs] at h; cases h
          · simp [truthy, hs]
      | vInt k =>
          simp only [parseId] at h
          by_cases hk : k = 0
          · rw [if_pos hk] at h; cases h
          · simp [truthy, hk]

theorem dfind_mem (d : List (DKey × Record)) (k : DKey) (r : Record)
    (h : dfind d k = some r) : (k, r) ∈ d := by
  induction d with
  | nil => cases h
  | cons q rest ih =>
      obtain ⟨k', e⟩ := q
      by_cases hk : k' = k
      · subst hk
        simp [dfind] at h
        simp [h]
      · simp [dfind, hk] at h
        exact List.mem_cons_of_mem _ (ih h)

theorem idOf_backfill (e v : Record) (n : Int) (h : idOf e = some n) :
    idOf (backfill e v) = some n := by
  have ht : truthy (rget e "ID") = true := parseId_some_truthy _ _ h
  unfold idOf at *
  rw [rget_backfill, if_neg (by simp [ht])]
  exact h

theorem saveStep_keep (st : Int × List (DKey × Record)) (v : Record) (n : Int)
    (h : idOf v = some n) :
    saveStep st v =
      (max st.1 n, dedupInsert st.2 (recKey (stampLead v)) (stampLead v) scoreFieldsSave) := by
  have h2 : parseId (rget (stampLead v) "ID") = some n := by
    have hi := idOf_stampLead v
    unfold idOf at hi
    rw [hi]
    exact h
  unfold saveStep
  simp only [h2]

theorem dedupInsert_cases (d : List (DKey × Record)) (k : DKey) (v : Record)
    (flds : List String) :
    (dfind d k = none ∧ dedupInsert d k v flds = d ++ [(k, v)]) ∨
    (∃ ex, dfind d k = some ex ∧ (k, ex) ∈ d ∧
      ((scoreOf ex flds < scoreOf v flds ∧ dedupInsert d k v flds = dset d k v) ∨
       (¬ scoreOf ex flds < scoreOf v flds ∧
         dedupInsert d k v flds = dset d k (backfill ex v)))) := by
  cases hf : dfind d k with
  | none =>
      left
      refine ⟨rfl, ?_⟩
      unfold dedupInsert
      rw [hf]
      exact dset_of_not_found d k v hf
  | some ex =>
      right
      refine ⟨ex, rfl, dfind_mem d k ex hf, ?_⟩
      by_cases hs : scoreOf ex flds < scoreOf v flds
      · left
        exact ⟨hs, by rw [dedupInsert_found d k v flds ex hf, if_pos hs]⟩
      · right
        exact ⟨hs, by rw [dedupInsert_found d k v flds ex hf, if_neg hs]⟩

theorem nameNorm_congr (u w : Record)
    (h : rget u "Название поселка" = rget w "Название поселка") : nameNorm u = nameNorm w := by
  unfold nameNorm rgetS
  rw [h]

theorem addrKey_congr (u w : Record) (h : rget u "Адрес" = rget w "Адрес") :
    addrKey u = addrKey w := by
  unfold addrKey rgetS
  rw [h]

theorem recKey_congr (u w : Record)
    (h1 : rget u "Название поселка" = rget w "Название поселка")
    (h2 : rget u "Адрес" = rget w "Адрес") : recKey u = recKey w := by
  unfold recKey
  rw [nameNorm_congr u w h1, addrKey_congr u w h2]

theorem addrKey_eq_empty_of_falsy (e : Record) (h : truthy (rget e "Адрес") = false) :
    addrKey e = "" := by
  unfold addrKey
  rw [h]
  simp

theorem truthy_addr_of_addrKey_ne (e : Record) (h : addrKey e ≠ "") :
    truthy (rget e "Адрес") = true := by
  by_contra hc
  exact h (addrKey_eq_empty_of_falsy e (by simpa using hc))

theorem nameNorm_backfill (e v : Record) (h : recKey e = recKey v) :
    nameNorm (backfill e v) = nameNorm e := by
  by_cases hc : "Название поселка" ∈ FIELDS ∧
      truthy (rget e "Название поселка") = false ∧
      truthy (rget v "Название поселка") = true
  · have hb : rget (backfill e v) "Название поселка" = rget v "Название поселка" := by
      rw [rget_backfill, if_pos hc]
    rw [nameNorm_congr _ _ hb]
    exact (nameNorm_eq_of_recKey_eq e v h).symm
  · have hb : rget (backfill e v) "Название поселка" = rget e "Название поселка" := by
      rw [rget_backfill, if_neg hc]
    exact nameNorm_congr _ _ hb

theorem recKey_backfill (e v : Record) (h : recKey e = recKey v) :
    recKey (backfill e v) = recKey e := by
  have hn := nameNorm_backfill e v h
  by_cases hae : addrKey e = ""
  · have hav : addrKey v = "" := by
      by_contra h2
      unfold recKey at h
      rw [if_pos hae, if_neg h2] at h
      cases h
    have hb : addrKey (backfill e v) = "" := by
      by_cases hte : truthy (rget e "Адрес") = true
      · have hbe : rget (backfill e v) "Адрес" = rget e "Адрес" := by
          rw [rget_backfill, if_neg (by simp [hte])]
        rw [addrKey_congr _ _ hbe]
        exact hae
      · by_cases htv : truthy (rget v "Адрес") = true
        · have hbe : rget (backfill e v) "Адрес" = rget v "Адрес" := by
            rw [rget_backfill, if_pos ⟨by decide, by simpa using hte, htv⟩]
          rw [addrKey_congr _ _ hbe]
          exact hav
        · exact addrKey_eq_empty_of_falsy _ (by
            rw [rget_backfill, if_neg (by simp [htv])]
            simpa using hte)
    unfold recKey
    rw [hn, if_pos hae, if_pos hb]
  · have hte := truthy_addr_of_addrKey_ne e hae
    have hbe : rget (backfill e v) "Адрес" = rget e "Адрес" := by
      rw [rget_backfill, if_neg (by simp [hte])]
    have hb := addrKey_congr _ _ hbe
    unfold recKey
    rw [hn, hb, if_neg hae]

theorem dedupInsert_invariant (m0 : Int) (S2 : List Int) (mb : Int)
    (d : List (DKey × Record)) (w : Record) (nw : Int)
    (hw : idOf w = some nw) (hwb : nw ≤ mb)
    (hwS : m0 < nw ∨ nw ∈ S2)
    (hkb : ∀ p ∈ d, ∃ n, idOf p.2 = some n ∧ n ≤ mb ∧ (m0 < n ∨ n ∈ S2))
    (hpd : List.Pairwise (fun p q : DKey × Record => idOf p.2 ≠ idOf q.2) d)
    (hkey : ∀ p ∈ d, recKey p.2 = p.1)
    (hnd : (d.map (·.1)).Nodup)
    (hdist : ∀ p ∈ d, idOf p.2 ≠ some nw) :
    (∀ p ∈ dedupInsert d (recKey w) w scoreFieldsSave,
        ∃ n, idOf p.2 = some n ∧ n ≤ mb ∧ (m0 < n ∨ n ∈ S2)) ∧
    List.Pairwise (fun p q : DKey × Record => idOf p.2 ≠ idOf q.2)
      (dedupInsert d (recKey w) w scoreFieldsSave) ∧
    (∀ p ∈ dedupInsert d (recKey w) w scoreFieldsSave, recKey p.2 = p.1) ∧
    ((dedupInsert d (recKey w) w scoreFieldsSave).map (·.1)).Nodup := by
  have hsymm : Symmetric (fun p q : DKey × Record => idOf p.2 ≠ idOf q.2) :=
    fun p q h => Ne.symm h
  rcases dedupInsert_cases d (recKey w) w scoreFieldsSave with ⟨hnf, heq⟩ | ⟨ex, hf, hmem, hcase⟩
  · rw [heq]
    refine ⟨?_, ?_, ?_, ?_⟩
    · intro p hp
      rcases List.mem_append.mp hp with h | h
      · exact hkb p h
      · simp at h
        rw [h]
        exact ⟨nw, hw, hwb, hwS⟩
    · rw [List.pairwise_append]
      refine ⟨hpd, List.pairwise_singleton _ _, ?_⟩
      intro p hp q hq
      simp at hq
      rw [hq]
      simpa [hw] using hdist p hp
    · intro p hp
      rcases List.mem_append.mp hp with h | h
      · exact hkey p h
      · simp at h
        rw [h]
    · rw [List.map_append]
      simp only [List.map_cons, List.map_nil]
      rw [List.nodup_append]
      refine ⟨hnd, List.nodup_singleton _, ?_⟩
      intro k1 hk1
      simp only [List.mem_singleton]
      intro hk2
      rw [hk2] at hk1
      exact (dfind_none_iff d (recKey w)).mp hnf hk1
  · -- the key is already present: ex is replaced or back-filled in place
    obtain ⟨nex, hexid, hexb, hexS⟩ := hkb (recKey w, ex) hmem
    have hkmem : recKey w ∈ d.map (·.1) := List.mem_map_of_mem (·.1) hmem
    have hinv : ∀ (r' : Record), idOf r' = some nw ∨ idOf r' = some nex → recKey r' = recKey w →
        (∀ p ∈ dset d (recKey w) r',
          ∃ n, idOf p.2 = some n ∧ n ≤ mb ∧ (m0 < n ∨ n ∈ S2)) ∧
        List.Pairwise (fun p q : DKey × Record => idOf p.2 ≠ idOf q.2)
          (dset d (recKey w) r') ∧
        (∀ p ∈ dset d (recKey w) r', recKey p.2 = p.1) ∧
        ((dset d (recKey w) r').map (·.1)).Nodup := by
      intro r' hid hkeyr
      have hdist' : ∀ p ∈ d, p.1 ≠ recKey w → idOf p.2 ≠ idOf r' := by
        intro p hp hp1
        rcases hid with h | h
        · rw [h]
          exact hdist p hp
        · rw [h, ← hexid]
          have hne : p ≠ (recKey w, ex) := by
            intro hc
            exact hp1 (by rw [hc])
          exact hpd.forall hsymm hp hmem hne
      refine ⟨?_, ?_, ?_, ?_⟩
      · intro p hp
        rcases mem_dset_or d (recKey w) r' p hp with h | h
        · exact hkb p h
        · rw [h]
          rcases hid with hi | hi
          · exact ⟨nw, hi, hwb, hwS⟩
          · exact ⟨nex, hi, hexb, hexS⟩
      · exact pairwise_dset _ d (recKey w) r' hnd
          (fun p hp hp1 => ⟨hdist' p hp hp1, fun hc => hdist' p hp hp1 hc.symm⟩) hpd
      · intro p hp
        rcases mem_dset_or d (recKey w) r' p hp with h | h
        · exact hkey p h
        · rw [h]
          exact hkeyr
      · rw [dkeys_dset_found d (recKey w) r' hkmem]
        exact hnd
    rcases hcase with ⟨hs, heq⟩ | ⟨hs, heq⟩
    · rw [heq]
      exact hinv w (Or.inl hw) rfl
    · rw [heq]
      have hexkey : recKey ex = recKey w := hkey (recKey w, ex) hmem
      refine hinv (backfill ex w) (Or.inr (idOf_backfill ex w nex hexid)) ?_
      rw [recKey_backfill ex w hexkey]
      exact hexkey

theorem idOf_stampId_pos (v : Record) (i : Int) (h : i ≠ 0) :
    idOf (stampId v i) = some i := by
  rw [idOf_stampId]
  simp [parseId, h]

theorem saveFold_invariant (m0 : Int) (h00 : 0 ≤ m0) :
    ∀ (l : List Record) (S : List Int) (m : Int) (d : List (DKey × Record)),
    m0 ≤ m →
    (∀ r ∈ l, ∀ n : Int, idOf r = some n → n ≤ m0 ∧ n ∉ S) →
    List.Pairwise (fun a b => ∀ n k : Int, idOf a = some n → idOf b = some k → n ≠ k) l →
    (∀ p ∈ d, ∃ n, idOf p.2 = some n ∧ n ≤ m ∧ (m0 < n ∨ n ∈ S)) →
    List.Pairwise (fun p q : DKey × Record => idOf p.2 ≠ idOf q.2) d →
    (∀ p ∈ d, recKey p.2 = p.1) →
    (d.map (·.1)).Nodup →
    ∃ S' : List Int,
      m0 ≤ (l.foldl saveStep (m, d)).1 ∧
      (∀ p ∈ (l.foldl saveStep (m, d)).2, ∃ n, idOf p.2 = some n ∧
        n ≤ (l.foldl saveStep (m, d)).1 ∧ (m0 < n ∨ n ∈ S')) ∧
      List.Pairwise (fun p q : DKey × Record => idOf p.2 ≠ idOf q.2)
        (l.foldl saveStep (m, d)).2 ∧
      (∀ p ∈ (l.foldl saveStep (m, d)).2, recKey p.2 = p.1) ∧
      ((l.foldl saveStep (m, d)).2.map (·.1)).Nodup := by
  intro l
  induction l with
  | nil =>
      intro S m d hm _ _ hkb hpd hkey hnd
      exact ⟨S, hm, hkb, hpd, hkey, hnd⟩
  | cons v rest ih =>
      intro S m d hm hb hp hkb hpd hkey hnd
      simp only [List.foldl_cons]
      cases hvid : idOf v with
      | some n =>
          rw [saveStep_keep (m, d) v n hvid]
          obtain ⟨hbound, hnotS⟩ := hb v (List.mem_cons_self v rest) n hvid
          have hid1 : idOf (stampLead v) = some n := by
            rw [idOf_stampLead]
            exact hvid
          have hdist : ∀ p ∈ d, idOf p.2 ≠ some n := by
            intro p hp hc
            obtain ⟨np, hid, _, hcond⟩ := hkb p hp
            rw [hid] at hc
            obtain rfl : np = n := by injection hc
            rcases hcond with h1 | h1
            · omega
            · exact hnotS h1
          have hkb2 : ∀ p ∈ d, ∃ k, idOf p.2 = some k ∧ k ≤ max m n ∧
              (m0 < k ∨ k ∈ n :: S) := by
            intro p hp
            obtain ⟨k, h1, h2, h3⟩ := hkb p hp
            refine ⟨k, h1, by omega, ?_⟩
            rcases h3 with h | h
            · exact Or.inl h
            · exact Or.inr (List.mem_cons_of_mem n h)
          obtain ⟨hq1, hq2, hq3, hq4⟩ :=
            dedupInsert_invariant m0 (n :: S) (max m n) d (stampLead v) n hid1
              (by omega) (Or.inr (List.mem_cons_self n S)) hkb2 hpd hkey hnd
              (by intro p hp; rw [← hid1] at hdist ⊢; exact hdist p hp)
          apply ih (n :: S) (max m n) _
            (by omega)
            (by
              intro r hr k hrk
              obtain ⟨h1, h2⟩ := hb r (List.mem_cons_of_mem v hr) k hrk
              refine ⟨h1, ?_⟩
              intro hc
              rcases List.mem_cons.mp hc with h3 | h3
              · exact ((List.pairwise_cons.mp hp).1 r hr n k hvid hrk) h3.symm
              · exact h2 h3)
            (List.pairwise_cons.mp hp).2
            hq1 hq2 hq3 hq4
      | none =>
          rw [saveStep_fresh (m, d) v hvid]
          have hmpos : m + 1 ≠ 0 := by omega
          have hid1 : idOf (stampId (stampLead v) (m + 1)) = some (m + 1) :=
            idOf_stampId_pos _ _ hmpos
          have hdist : ∀ p ∈ d, idOf p.2 ≠ some (m + 1) := by
            intro p hp hc
            obtain ⟨np, hid, h2, _⟩ := hkb p hp
            rw [hid] at hc
            obtain rfl : np = m + 1 := by injection hc
            omega
          have hkb2 : ∀ p ∈ d, ∃ k, idOf p.2 = some k ∧ k ≤ m + 1 ∧
              (m0 < k ∨ k ∈ S) := by
            intro p hp
            obtain ⟨k, h1, h2, h3⟩ := hkb p hp
            exact ⟨k, h1, by omega, h3⟩
          obtain ⟨hq1, hq2, hq3, hq4⟩ :=
            dedupInsert_invariant m0 S (m + 1) d (stampId (stampLead v) (m + 1)) (m + 1) hid1
              (by omega) (Or.inl (by omega)) hkb2 hpd hkey hnd
              (by intro p hp; rw [← hid1] at hdist ⊢; exact hdist p hp)
          apply ih S (m + 1) _
            (by omega)
            (by
              intro r hr k hrk
              exact hb r (List.mem_cons_of_mem v hr) k hrk)
            (List.pairwise_cons.mp hp).2
            hq1 hq2 hq3 hq4

theorem insSorted_perm (le : Record → Record → Bool) (x : Record) (l : List Record) :
    List.Perm (insSorted le x l) (x :: l) := by
  induction l with
  | nil => exact List.Perm.refl _
  | cons y ys ih =>
      unfold insSorted
      by_cases h : le x y = true
      · rw [if_pos h]
      · rw [if_neg h]
        exact (ih.cons y).trans (List.Perm.swap x y ys)

theorem sortBy_perm (le : Record → Record → Bool) (l : List Record) :
    List.Perm (sortBy le l) l := by
  induction l with
  | nil => exact List.Perm.refl _
  | cons x xs ih =>
      unfold sortBy
      simp only [List.foldr_cons]
      exact (insSorted_perm le x _).trans (ih.cons x)

theorem maxIdInit_step_mono (l : List Record) :
    ∀ (acc acc' : Int), acc ≤ acc' →
      l.foldl (fun m v => match scanId (rget v "ID") with
        | some n => max m n
        | none => m) acc ≤
      l.foldl (fun m v => match scanId (rget v "ID") with
        | some n => max m n
        | none => m) acc' := by
  induction l with
  | nil => intro acc acc' h; exact h
  | cons r rest ih =>
      intro acc acc' h
      simp only [List.foldl_cons]
      cases hsn : scanId (rget r "ID") with
      | none => exact ih acc acc' h
      | some k => exact ih (max acc k) (max acc' k) (by omega)

theorem maxIdInit_step_le (l : List Record) :
    ∀ (acc : Int), acc ≤
      l.foldl (fun m v => match scanId (rget v "ID") with
        | some n => max m n
        | none => m) acc := by
  induction l with
  | nil => intro acc; exact le_rfl
  | cons r rest ih =>
      intro acc
      simp only [List.foldl_cons]
      cases hsn : scanId (rget r "ID") with
      | none => exact ih acc
      | some k => exact le_trans (by omega : acc ≤ max acc k) (ih _)

theorem maxIdInit_nonneg (l : List Record) : 0 ≤ maxIdInit l := by
  unfold maxIdInit
  exact maxIdInit_step_le l 0

theorem scanId_of_parseId (o : Option PyVal) (n : Int) (h : parseId o = some n) :
    scanId o = some n := by
  cases o with
  | none => cases h
  | some x =>
      cases x with
      | vStr s =>
          simp only [parseId] at h
          simp only [scanId]
          by_cases hs : s = ""
          · rw [if_pos hs] at h; cases h
          · rw [if_neg hs] at h
            rw [if_neg hs]
            by_cases hd : isDigits s = true
            · rw [if_pos hd] at h
              by_cases hz : ((natOfDigits s.toList : Int)) = 0
              · rw [if_pos hz] at h; cases h
              · rw [if_neg hz] at h
                injection h with h
                simp only [hd, if_true]
                exact congrArg some h
            · rw [if_neg hd] at h; cases h
      | vInt k =>
          simp only [parseId, scanId] at h ⊢
          by_cases hk : k = 0
          · rw [if_pos hk] at h; cases h
          · rw [if_neg hk] at h
            rw [if_neg hk]
            exact h

theorem maxIdInit_bound (l : List Record) :
    ∀ r ∈ l, ∀ n : Int, idOf r = some n → n ≤ maxIdInit l := by
  unfold maxIdInit
  have key : ∀ (acc : Int) (r : Record), r ∈ l → ∀ n : Int,
      scanId (rget r "ID") = some n →
      n ≤ l.foldl (fun m v => match scanId (rget v "ID") with
        | some k => max m k
        | none => m) acc := by
    induction l with
    | nil => intro acc r hr; exact absurd hr (List.not_mem_nil r)
    | cons q rest ih =>
        intro acc r hr n hn
        simp only [List.foldl_cons]
        rcases List.mem_cons.mp hr with h | h
        · subst h
          rw [hn]
          calc n ≤ max acc n := by omega
            _ ≤ _ := maxIdInit_step_le rest (max acc n)
        · cases hsn : scanId (rget q "ID") with
          | none => exact ih acc r h n hn
          | some k => exact ih (max acc k) r h n hn
  intro r hr n hn
  exact key 0 r hr n (scanId_of_parseId _ n hn)

theorem save_results_distinct_general (existing newRecs : List Record)
    (hne : newRecs ≠ [])
    (hnew : ∀ r ∈ newRecs, idOf r = none)
    (hex : List.Pairwise
      (fun a b => ∀ n k : Int, idOf a = some n → idOf b = some k → n ≠ k) existing) :
    ∃ out, save_results existing newRecs = some out ∧
      (∀ r ∈ out, ∃ n : Int, idOf r = some n) ∧
      List.Pairwise (fun a b => idOf a ≠ idOf b) out ∧
      List.Pairwise (fun a b => recKey a ≠ recKey b) out := by
  have hb : ∀ r ∈ existing ++ newRecs, ∀ n : Int, idOf r = some n →
      n ≤ maxIdInit existing ∧ n ∉ ([] : List Int) := by
    intro r hr n hn
    rcases List.mem_append.mp hr with h | h
    · exact ⟨maxIdInit_bound existing r h n hn, by simp⟩
    · rw [hnew r h] at hn
      cases hn
  have hp : List.Pairwise
      (fun a b => ∀ n k : Int, idOf a = some n → idOf b = some k → n ≠ k)
      (existing ++ newRecs) := by
    rw [List.pairwise_append]
    refine ⟨hex, ?_, ?_⟩
    · apply List.pairwise_of_forall_mem_list
      intro a ha b hb n k hn hk
      rw [hnew b hb] at hk
      cases hk
    · intro a _ b hbm n k _ hk
      rw [hnew b hbm] at hk
      cases hk
  obtain ⟨S', h1, h2, h3, h4, h5⟩ :=
    saveFold_invariant (maxIdInit existing) (maxIdInit_nonneg existing)
      (existing ++ newRecs) [] (maxIdInit existing) [] le_rfl hb hp
      (by intro p hp; cases hp) List.Pairwise.nil (by intro p hp; cases hp) (by simp)
  have hsave : save_results existing newRecs =
      some (sortBy (fun a b => decide (get_id a ≤ get_id b))
        ((((existing ++ newRecs).foldl saveStep (maxIdInit existing, [])).2).map (·.2))) := by
    unfold save_results
    rw [if_neg hne]
  refine ⟨_, hsave, ?_, ?_, ?_⟩
  · intro r hr
    have hr2 := (sortBy_perm _ _).mem_iff.mp hr
    rcases List.mem_map.mp hr2 with ⟨p, hp2, rfl⟩
    obtain ⟨n, hn, _, _⟩ := h2 p hp2
    exact ⟨n, hn⟩
  · have hmap : List.Pairwise (fun a b : Record => idOf a ≠ idOf b)
        ((((existing ++ newRecs).foldl saveStep (maxIdInit existing, [])).2).map (·.2)) :=
      List.pairwise_map.mpr h3
    exact ((sortBy_perm _ _).pairwise_iff (fun h => Ne.symm h)).mpr hmap
  · have hkeys : List.Pairwise (fun p q : DKey × Record => p.1 ≠ q.1)
        (((existing ++ newRecs).foldl saveStep (maxIdInit existing, [])).2) :=
      List.pairwise_map.mp h5
    have hkeys2 : List.Pairwise (fun p q : DKey × Record => recKey p.2 ≠ recKey q.2)
        (((existing ++ newRecs).foldl saveStep (maxIdInit existing, [])).2) := by
      refine hkeys.imp_of_mem ?_
      intro p q hpm hqm hne2
      rw [h4 p hpm, h4 q hqm]
      exact hne2
    have hmap : List.Pairwise (fun a b : Record => recKey a ≠ recKey b)
        ((((existing ++ newRecs).foldl saveStep (maxIdInit existing, [])).2).map (·.2)) :=
      List.pairwise_map.mpr hkeys2
    exact ((sortBy_perm _ _).pairwise_iff (fun h => Ne.symm h)).mpr hmap

/-- C2 (amended): when no incoming record carries a keepable id (the
pipeline's normal case — scraped records have no `ID`) and the existing rows'
parsable ids are pairwise distinct, every row written by `save_results` has an
integer id, the written ids are pairwise distinct, and the written rows have
pairwise-distinct dedup keys; records lacking a parsable id always receive a
fresh id above the running maximum.  (An incoming record that *does* carry a
colliding nonzero id keeps it — see the counterexample.)  The `WFrec`
hypothesis restricts attention to records on which the Python code does not
raise (see the module comment). -/
theorem C2_saved_rows_have_distinct_ids (existing newRecs : List Record)
    (hne : newRecs ≠ [])
    (hwf : ∀ r ∈ existing ++ newRecs, WFrec r)
    (hnew : ∀ r ∈ newRecs, idOf r = none)
    (hex : List.Pairwise
      (fun a b => ∀ n k : Int, idOf a = some n → idOf b = some k → n ≠ k) existing) :
    ∃ out, save_results existing newRecs = some out ∧
      (∀ r ∈ out, ∃ n : Int, idOf r = some n) ∧
      List.Pairwise (fun a b => idOf a ≠ idOf b) out ∧
      List.Pairwise (fun a b => recKey a ≠ recKey b) out :=
  save_results_distinct_general existing newRecs hne hnew hex

theorem C2_saved_rows_have_distinct_ids_witness :
    (([[("Название поселка", PyVal.vStr "Поселок Два")]] : List Record) ≠ [] ∧
     (∀ r ∈ ([[("Название поселка", PyVal.vStr "Поселок Два")]] : List Record),
        idOf r = none)) ∧
    ∃ out, save_results [] [[("Название поселка", PyVal.vStr "Поселок Два")]] = some out ∧
      (∀ r ∈ out, ∃ n : Int, idOf r = some n) ∧
      List.Pairwise (fun a b => idOf a ≠ idOf b) out ∧
      List.Pairwise (fun a b => recKey a ≠ recKey b) out :=
  ⟨⟨by decide, by decide⟩,
   C2_saved_rows_have_distinct_ids [] [[("Название поселка", PyVal.vStr "Поселок Два")]]
     (by decide)
     (by
       intro r hr
       have h : r = [("Название поселка", PyVal.vStr "Поселок Два")] := by simpa using hr
       subst h
       exact ⟨fun n hc => PyVal.noConfusion (Option.some.inj hc),
              fun n hc => Option.noConfusion hc,
              fun n hc => Option.noConfusion hc⟩)
     (by decide) List.Pairwise.nil⟩

/-- C2 (counterexample): an incoming record whose id collides with an existing
row's id is NOT given a fresh id — both rows are written with id 1, so the
persisted ids are not pairwise distinct. -/
theorem C2_counterexample_colliding_id_kept :
    (save_results [[("ID", PyVal.vStr "1"), ("Название поселка", PyVal.vStr "Поселок Один")]]
        [[("ID", PyVal.vInt 1), ("Название поселка", PyVal.vStr "Поселок Два")]]).map
      (List.map get_id) = some [1, 1] ∧
    (save_results [[("ID", PyVal.vStr "1"), ("Название поселка", PyVal.vStr "Поселок Один")]]
        [[("ID", PyVal.vInt 1), ("Название поселка", PyVal.vStr "Поселок Два")]]).map
      List.length = some 2 := by
  refine ⟨by decide, by decide⟩

theorem dfind_append_left (d l : List (DKey × Record)) (k : DKey)
    (h : dfind d k ≠ none) : dfind (d ++ l) k = dfind d k := by
  induction d with
  | nil => exact absurd rfl h
  | cons q rest ih =>
      obtain ⟨k', e⟩ := q
      by_cases hk : k' = k
      · simp [dfind, hk]
      · simp only [List.cons_append, dfind, hk, if_false]
        exact ih (by simpa [dfind, hk] using h)

theorem dfind_append_none (d l : List (DKey × Record)) (k : DKey)
    (h : dfind d k = none) : dfind (d ++ l) k = dfind l k := by
  induction d with
  | nil => rfl
  | cons q rest ih =>
      obtain ⟨k', e⟩ := q
      by_cases hk : k' = k
      · simp [dfind, hk] at h
      · simp only [dfind, hk] at h
        simp only [List.cons_append, dfind, hk, if_false]
        exact ih h

theorem dfind_dedupInsert_mono (d : List (DKey × Record)) (kw : DKey) (w : Record)
    (flds : List String) (k : DKey) (h : dfind d k ≠ none) :
    dfind (dedupInsert d kw w flds) k ≠ none := by
  rcases dedupInsert_cases d kw w flds with ⟨hnf, heq⟩ | ⟨ex, hf2, hmem, hcase⟩
  · rw [heq, dfind_append_left d _ k h]
    exact h
  · have hset : ∀ r : Record, dfind (dset d kw r) k ≠ none := by
      intro r
      by_cases hkk : kw = k
      · subst hkk
        rw [dfind_dset_self]
        simp
      · rw [dfind_dset_ne d kw k r hkk]
        exact h
    rcases hcase with ⟨_, heq⟩ | ⟨_, heq⟩ <;> rw [heq] <;> exact hset _

theorem dfind_dedupInsert_self (d : List (DKey × Record)) (k : DKey) (w : Record)
    (flds : List String) : dfind (dedupInsert d k w flds) k ≠ none := by
  rcases dedupInsert_cases d k w flds with ⟨hnf, heq⟩ | ⟨ex, hf2, hmem, hcase⟩
  · rw [heq, dfind_append_none d _ k hnf]
    simp [dfind]
  · rcases hcase with ⟨_, heq⟩ | ⟨_, heq⟩ <;> rw [heq, dfind_dset_self] <;> simp

theorem dfind_dedupInsert_none (d : List (DKey × Record)) (kw : DKey) (w : Record)
    (flds : List String) (k : DKey) (h : dfind d k = none) (hne : kw ≠ k) :
    dfind (dedupInsert d kw w flds) k = none := by
  rcases dedupInsert_cases d kw w flds with ⟨hnf, heq⟩ | ⟨ex, hf2, hmem, hcase⟩
  · rw [heq, dfind_append_none d _ k h]
    simp [dfind, hne]
  · rcases hcase with ⟨_, heq⟩ | ⟨_, heq⟩ <;> rw [heq, dfind_dset_ne d kw k _ hne] <;> exact h

theorem saveStep_inserted_key (st : Int × List (DKey × Record)) (v : Record) :
    ∃ w : Record, recKey w = recKey v ∧
      (saveStep st v).2 = dedupInsert st.2 (recKey w) w scoreFieldsSave := by
  cases hid : idOf v with
  | some n =>
      rw [saveStep_keep st v n hid]
      exact ⟨stampLead v, recKey_stampLead v, rfl⟩
  | none =>
      rw [saveStep_fresh st v hid]
      exact ⟨stampId (stampLead v) (st.1 + 1), by rw [recKey_stampId, recKey_stampLead], rfl⟩

theorem saveStep_key_mono (st : Int × List (DKey × Record)) (v : Record) (k : DKey)
    (h : dfind st.2 k ≠ none) : dfind (saveStep st v).2 k ≠ none := by
  obtain ⟨w, _, heq⟩ := saveStep_inserted_key st v
  rw [heq]
  exact dfind_dedupInsert_mono st.2 (recKey w) w scoreFieldsSave k h

theorem saveFold_key_mono (l : List Record) :
    ∀ (st : Int × List (DKey × Record)) (k : DKey), dfind st.2 k ≠ none →
      dfind ((l.foldl saveStep st)).2 k ≠ none := by
  induction l with
  | nil => intro st k h; exact h
  | cons v rest ih =>
      intro st k h
      simp only [List.foldl_cons]
      exact ih (saveStep st v) k (saveStep_key_mono st v k h)

theorem saveFold_all_keys (l : List Record) :
    ∀ (st : Int × List (DKey × Record)), ∀ v ∈ l,
      dfind ((l.foldl saveStep st)).2 (recKey v) ≠ none := by
  induction l with
  | nil => intro st v hv; cases hv
  | cons u rest ih =>
      intro st v hv
      simp only [List.foldl_cons]
      rcases List.mem_cons.mp hv with h | h
      · subst h
        apply saveFold_key_mono rest (saveStep st v)
        obtain ⟨w, hwk, heq⟩ := saveStep_inserted_key st v
        rw [heq, ← hwk]
        exact dfind_dedupInsert_self st.2 (recKey w) w scoreFieldsSave
      · exact ih (saveStep st u) v h

theorem dedupInsert_length_found (d : List (DKey × Record)) (k : DKey) (w : Record)
    (flds : List String) (h : dfind d k ≠ none) :
    (dedupInsert d k w flds).length = d.length := by
  rcases dedupInsert_cases d k w flds with ⟨hnf, _⟩ | ⟨ex, hf2, hmem, hcase⟩
  · exact absurd hnf h
  · have hk : k ∈ d.map (·.1) := List.mem_map_of_mem (·.1) hmem
    rcases hcase with ⟨_, heq⟩ | ⟨_, heq⟩ <;> rw [heq] <;> exact length_dset_found d k _ hk

theorem saveFold_length_found (l : List Record) :
    ∀ (st : Int × List (DKey × Record)),
      (∀ v ∈ l, dfind st.2 (recKey v) ≠ none) →
      ((l.foldl saveStep st)).2.length = st.2.length := by
  induction l with
  | nil => intro st _; rfl
  | cons v rest ih =>
      intro st hall
      simp only [List.foldl_cons]
      have h1 : (saveStep st v).2.length = st.2.length := by
        obtain ⟨w, hwk, heq⟩ := saveStep_inserted_key st v
        rw [heq, dedupInsert_length_found st.2 (recKey w) w scoreFieldsSave
          (by rw [hwk]; exact hall v (List.mem_cons_self v rest))]
      rw [ih (saveStep st v)
        (fun u hu => saveStep_key_mono st v (recKey u) (hall u (List.mem_cons_of_mem v hu))), h1]

theorem saveFold_length_all_new (l : List Record) :
    ∀ (st : Int × List (DKey × Record)),
      List.Pairwise (fun a b => recKey a ≠ recKey b) l →
      (∀ v ∈ l, dfind st.2 (recKey v) = none) →
      ((l.foldl saveStep st)).2.length = st.2.length + l.length := by
  induction l with
  | nil => intro st _ _; simp
  | cons v rest ih =>
      intro st hpw hall
      simp only [List.foldl_cons, List.length_cons]
      obtain ⟨w, hwk, heq⟩ := saveStep_inserted_key st v
      have hnone : dfind st.2 (recKey w) = none := by
        rw [hwk]; exact hall v (List.mem_cons_self v rest)
      have h1 : (saveStep st v).2.length = st.2.length + 1 := by
        rw [heq]
        rcases dedupInsert_cases st.2 (recKey w) w scoreFieldsSave with ⟨_, heq2⟩ | ⟨ex, hf2, _, _⟩
        · rw [heq2]
          simp
        · rw [hnone] at hf2
          cases hf2
      have h2 : ∀ u ∈ rest, dfind (saveStep st v).2 (recKey u) = none := by
        intro u hu
        rw [heq]
        refine dfind_dedupInsert_none st.2 (recKey w) w scoreFieldsSave (recKey u)
          (hall u (List.mem_cons_of_mem v hu)) ?_
        rw [hwk]
        exact (List.pairwise_cons.mp hpw).1 u hu
      rw [ih (saveStep st v) (List.pairwise_cons.mp hpw).2 h2, h1]
      omega

theorem noIntZero_rset (v : Record) (f : String) (x : PyVal) (hv : noIntZero v)
    (hx : x ≠ .vInt 0) : noIntZero (rset v f x) := by
  intro g hc
  rw [rget_rset] at hc
  by_cases h : f = g
  · rw [if_pos h] at hc
    exact hx (Option.some.inj hc)
  · rw [if_neg h] at hc
    exact hv g hc

theorem noIntZero_backfill (e v : Record) (he : noIntZero e) (hv : noIntZero v) :
    noIntZero (backfill e v) := by
  intro g hc
  rw [rget_backfill] at hc
  by_cases h : g ∈ FIELDS ∧ truthy (rget e g) = false ∧ truthy (rget v g) = true
  · rw [if_pos h] at hc
    exact hv g hc
  · rw [if_neg h] at hc
    exact he g hc

theorem idOf_backfill_or (e v : Record) (n : Int) (h : idOf (backfill e v) = some n) :
    idOf e = some n ∨ idOf v = some n := by
  unfold idOf at *
  rw [rget_backfill] at h
  by_cases hc : "ID" ∈ FIELDS ∧ truthy (rget e "ID") = false ∧ truthy (rget v "ID") = true
  · rw [if_pos hc] at h
    exact Or.inr h
  · rw [if_neg hc] at h
    exact Or.inl h

theorem saveFold_noIntZero (l : List Record) :
    ∀ (m : Int) (d : List (DKey × Record)), 0 ≤ m →
      (∀ r ∈ l, noIntZero r) → (∀ p ∈ d, noIntZero p.2) →
      ∀ p ∈ ((l.foldl saveStep (m, d))).2, noIntZero p.2 := by
  induction l with
  | nil => intro m d _ _ hd; exact hd
  | cons v rest ih =>
      intro m d hm hl hd
      simp only [List.foldl_cons]
      have hv : noIntZero v := hl v (List.mem_cons_self v rest)
      have hrest : ∀ r ∈ rest, noIntZero r := fun r hr => hl r (List.mem_cons_of_mem v hr)
      have hstamp : noIntZero (stampLead v) :=
        noIntZero_rset v _ _ hv (by intro hc; cases hc)
      have hd2 : ∀ (w : Record) (k : DKey), noIntZero w →
          ∀ p ∈ dedupInsert d k w scoreFieldsSave, noIntZero p.2 := by
        intro w k hw p hp
        rcases dedupInsert_cases d k w scoreFieldsSave with ⟨_, heq⟩ | ⟨ex, hf2, hmem, hcase⟩
        · rw [heq] at hp
          rcases List.mem_append.mp hp with h | h
          · exact hd p h
          · simp at h
            rw [h]
            exact hw
        · have hex : noIntZero ex := hd (k, ex) hmem
          rcases hcase with ⟨_, heq⟩ | ⟨_, heq⟩ <;> rw [heq] at hp <;>
            rcases mem_dset_or d k _ p hp with h | h
          · exact hd p h
          · rw [h]; exact hw
          · exact hd p h
          · rw [h]; exact noIntZero_backfill ex w hex hw
      cases hid : idOf v with
      | some n =>
          rw [saveStep_keep (m, d) v n hid]
          exact ih (max m n) _ (by omega) hrest (hd2 (stampLead v) _ hstamp)
      | none =>
          rw [saveStep_fresh (m, d) v hid]
          exact ih (m + 1) _ (by omega) hrest
            (hd2 (stampId (stampLead v) (m + 1)) _
              (noIntZero_rset _ _ _ hstamp (by intro hc; injection hc with hc2; omega)))

theorem saveFold_pos (l : List Record) :
    ∀ (m : Int) (d : List (DKey × Record)), 0 ≤ m →
      (∀ r ∈ l, ∀ n : Int, idOf r = some n → 0 < n) →
      (∀ p ∈ d, ∀ n : Int, idOf p.2 = some n → 0 < n) →
      ∀ p ∈ ((l.foldl saveStep (m, d))).2, ∀ n : Int, idOf p.2 = some n → 0 < n := by
  induction l with
  | nil => intro m d _ _ hd; exact hd
  | cons v rest ih =>
      intro m d hm hl hd
      simp only [List.foldl_cons]
      have hrest : ∀ r ∈ rest, ∀ n : Int, idOf r = some n → 0 < n :=
        fun r hr => hl r (List.mem_cons_of_mem v hr)
      have hd2 : ∀ (w : Record) (k : DKey), (∀ n : Int, idOf w = some n → 0 < n) →
          ∀ p ∈ dedupInsert d k w scoreFieldsSave, ∀ n : Int, idOf p.2 = some n → 0 < n := by
        intro w k hw p hp
        rcases dedupInsert_cases d k w scoreFieldsSave with ⟨_, heq⟩ | ⟨ex, hf2, hmem, hcase⟩
        · rw [heq] at hp
          rcases List.mem_append.mp hp with h | h
          · exact hd p h
          · simp at h
            rw [h]
            exact hw
        · have hex := hd (k, ex) hmem
          rcases hcase with ⟨_, heq⟩ | ⟨_, heq⟩ <;> rw [heq] at hp <;>
            rcases mem_dset_or d k _ p hp with h | h
          · exact hd p h
          · rw [h]; exact hw
          · exact hd p h
          · rw [h]
            intro n hn
            rcases idOf_backfill_or ex w n hn with h2 | h2
            · exact hex n h2
            · exact hw n h2
      cases hid : idOf v with
      | some n =>
          rw [saveStep_keep (m, d) v n hid]
          refine ih (max m n) _ (by omega) hrest (hd2 (stampLead v) _ ?_)
          intro k hk
          rw [idOf_stampLead, hid] at hk
          injection hk with hk2
          subst hk2
          exact hl v (List.mem_cons_self v rest) _ hid
      | none =>
          rw [saveStep_fresh (m, d) v hid]
          refine ih (m + 1) _ (by omega) hrest (hd2 (stampId (stampLead v) (m + 1)) _ ?_)
          intro k hk
          rw [idOf_stampId_pos _ _ (by omega)] at hk
          injection hk with hk2
          omega

theorem rget_mapFields (l : List String) (g : String → PyVal) (f : String) :
    rget (l.map (fun x => (x, g x))) f = if f ∈ l then some (g f) else none := by
  induction l with
  | nil => simp [rget]
  | cons a rest ih =>
      by_cases h : a = f
      · subst h
        simp [rget, ih]
      · have h2 : ¬ f = a := fun hc => h hc.symm
        simp [rget, h, ih, h2]

theorem rget_csvRound (r : Record) (f : String) :
    rget (csvRound r) f =
      if f ∈ FIELDS then some (.vStr (renderVal (rget r f))) else none :=
  rget_mapFields FIELDS (fun x => .vStr (renderVal (rget r x))) f

theorem renderVal_falsy (o : Option PyVal) (ht : truthy o = false)
    (hz : o ≠ some (.vInt 0)) : renderVal o = "" := by
  cases o with
  | none => rfl
  | some x =>
      cases x with
      | vStr s =>
          simp [truthy] at ht
          simp [renderVal, ht]
      | vInt n =>
          simp [truthy] at ht
          exact absurd (by rw [ht]) hz

theorem truthy_csvRound (r : Record) (f : String) (hz : noIntZero r) (hf : f ∈ FIELDS) :
    truthy (rget (csvRound r) f) = truthy (rget r f) := by
  rw [rget_csvRound, if_pos hf]
  cases ho : rget r f with
  | none => simp [truthy, renderVal]
  | some x =>
      cases x with
      | vStr s => simp [truthy, renderVal]
      | vInt n =>
          have hn : n ≠ 0 := by
            intro hc
            exact hz f (by rw [ho, hc])
          simp [truthy, renderVal, hn, intRepr_ne_empty n]

theorem rgetS_csvRound (r : Record) (f : String) (hf : f ∈ FIELDS) :
    rgetS (csvRound r) f = rgetS r f := by
  unfold rgetS
  rw [rget_csvRound, if_pos hf]
  rfl

theorem recKey_csvRound (r : Record) (hz : noIntZero r) : recKey (csvRound r) = recKey r := by
  have hn : nameNorm (csvRound r) = nameNorm r := by
    unfold nameNorm
    rw [rgetS_csvRound r _ (by decide)]
  have ha : addrKey (csvRound r) = addrKey r := by
    unfold addrKey
    rw [truthy_csvRound r _ hz (by decide), rgetS_csvRound r _ (by decide)]
  unfold recKey
  rw [hn, ha]

theorem idOf_csvRound_pos (r : Record) (n : Int) (h : idOf r = some n) (hpos : 0 < n) :
    idOf (csvRound r) = some n := by
  unfold idOf at *
  rw [rget_csvRound, if_pos (by decide : "ID" ∈ FIELDS)]
  cases ho : rget r "ID" with
  | none => rw [ho] at h; cases h
  | some x =>
      rw [ho] at h
      cases x with
      | vStr s =>
          simp only [renderVal]
          exact h
      | vInt k =>
          have hk : k = n := by
            simp only [parseId] at h
            by_cases hz : k = 0
            · rw [if_pos hz] at h; cases h
            · rw [if_neg hz] at h
              exact Option.some.inj h
          subst hk
          simp only [renderVal]
          exact parseId_intRepr_pos k (by omega)

theorem noIntZero_csvRound (r : Record) : noIntZero (csvRound r) := by
  intro g hc
  rw [rget_csvRound] at hc
  by_cases h : g ∈ FIELDS
  · rw [if_pos h] at hc
    exact PyVal.noConfusion (Option.some.inj hc)
  · rw [if_neg h] at hc
    cases hc

theorem dfind_some_exists (d : List (DKey × Record)) (k : DKey)
    (h : dfind d k ≠ none) : ∃ r, (k, r) ∈ d := by
  cases hf : dfind d k with
  | none => exact absurd hf h
  | some r => exact ⟨r, dfind_mem d k r hf⟩

theorem saveFold_keys_consistent (l : List Record) :
    ∀ (st : Int × List (DKey × Record)), (∀ p ∈ st.2, recKey p.2 = p.1) →
      ∀ p ∈ ((l.foldl saveStep st)).2, recKey p.2 = p.1 := by
  induction l with
  | nil => intro st h; exact h
  | cons v rest ih =>
      intro st h
      simp only [List.foldl_cons]
      apply ih
      obtain ⟨w, hwk, heq⟩ := saveStep_inserted_key st v
      rw [heq]
      intro p hp
      rcases dedupInsert_cases st.2 (recKey w) w scoreFieldsSave with ⟨_, heq2⟩ |
        ⟨ex, hf2, hmem, hcase⟩
      · rw [heq2] at hp
        rcases List.mem_append.mp hp with h2 | h2
        · exact h p h2
        · simp at h2
          rw [h2]
      · have hexk : recKey ex = recKey w := h (recKey w, ex) hmem
        rcases hcase with ⟨_, heq2⟩ | ⟨_, heq2⟩ <;> rw [heq2] at hp <;>
          rcases mem_dset_or st.2 (recKey w) _ p hp with h2 | h2
        · exact h p h2
        · rw [h2]
        · exact h p h2
        · rw [h2]
          simp only
          rw [recKey_backfill ex w hexk]
          exact hexk

/-- C3 (amended): starting from a well-formed persisted file (string-typed key fields,
no stored int 0, parsable ids pairwise distinct and positive) and in-memory
records that carry no ids, saving once and then re-saving the written file
with the same records leaves the row count unchanged, with pairwise-distinct
ids and pairwise-distinct dedup keys in the re-saved file. -/
theorem C3_resave_same_records_keeps_rowcount (F0 R : List Record)
    (hne : R ≠ [])
    (hwf : ∀ r ∈ F0 ++ R, WFrec r)
    (hz : ∀ r ∈ F0 ++ R, noIntZero r)
    (hnew : ∀ r ∈ R, idOf r = none)
    (hexid : List.Pairwise
      (fun a b => ∀ n k : Int, idOf a = some n → idOf b = some k → n ≠ k) F0)
    (hexpos : ∀ r ∈ F0, ∀ n : Int, idOf r = some n → 0 < n) :
    ∃ F1 F2, save_results F0 R = some F1 ∧
      save_results (F1.map csvRound) R = some F2 ∧
      F2.length = F1.length ∧
      List.Pairwise (fun a b => idOf a ≠ idOf b) F2 ∧
      List.Pairwise (fun a b => recKey a ≠ recKey b) F2 := by
  obtain ⟨F1, save1, hF1_some, hF1_idpw, hF1_keypw⟩ :=
    save_results_distinct_general F0 R hne hnew hexid
  have hd1eq : F1 = sortBy (fun a b => decide (get_id a ≤ get_id b))
      ((((F0 ++ R).foldl saveStep (maxIdInit F0, [])).2).map (·.2)) := by
    have h2 := save1
    unfold save_results at h2
    rw [if_neg hne] at h2
    exact (Option.some.inj h2).symm
  have hmemF1 : ∀ r, r ∈ F1 ↔
      r ∈ (((F0 ++ R).foldl saveStep (maxIdInit F0, [])).2).map (·.2) := by
    intro r
    rw [hd1eq]
    exact (sortBy_perm _ _).mem_iff
  have hallpos : ∀ r ∈ F0 ++ R, ∀ n : Int, idOf r = some n → 0 < n := by
    intro r hr n hn
    rcases List.mem_append.mp hr with h | h
    · exact hexpos r h n hn
    · rw [hnew r h] at hn
      cases hn
  have hpos1 : ∀ p ∈ ((F0 ++ R).foldl saveStep (maxIdInit F0, [])).2,
      ∀ n : Int, idOf p.2 = some n → 0 < n :=
    saveFold_pos (F0 ++ R) (maxIdInit F0) [] (maxIdInit_nonneg F0) hallpos
      (by intro p hp; cases hp)
  have hz1 : ∀ p ∈ ((F0 ++ R).foldl saveStep (maxIdInit F0, [])).2, noIntZero p.2 :=
    saveFold_noIntZero (F0 ++ R) (maxIdInit F0) [] (maxIdInit_nonneg F0) hz
      (by intro p hp; cases hp)
  have hkey1 : ∀ p ∈ ((F0 ++ R).foldl saveStep (maxIdInit F0, [])).2, recKey p.2 = p.1 :=
    saveFold_keys_consistent (F0 ++ R) (maxIdInit F0, []) (by intro p hp; cases hp)
  have hF1_pos : ∀ r ∈ F1, ∀ n : Int, idOf r = some n → 0 < n := by
    intro r hr
    rcases List.mem_map.mp ((hmemF1 r).mp hr) with ⟨p, hp, he⟩
    rw [← he]
    exact hpos1 p hp
  have hF1_z : ∀ r ∈ F1, noIntZero r := by
    intro r hr
    rcases List.mem_map.mp ((hmemF1 r).mp hr) with ⟨p, hp, he⟩
    rw [← he]
    exact hz1 p hp
  have hcover : ∀ v ∈ R, ∃ u ∈ F1, recKey u = recKey v := by
    intro v hv
    have hk := saveFold_all_keys (F0 ++ R) (maxIdInit F0, []) v
      (List.mem_append.mpr (Or.inr hv))
    obtain ⟨r, hmem⟩ := dfind_some_exists _ (recKey v) hk
    refine ⟨r, ?_, ?_⟩
    · rw [hmemF1]
      exact List.mem_map_of_mem (·.2) hmem
    · exact hkey1 (recKey v, r) hmem
  -- run 2
  have hF1'_idpw : List.Pairwise
      (fun a b => ∀ n k : Int, idOf a = some n → idOf b = some k → n ≠ k)
      (F1.map csvRound) := by
    apply List.pairwise_map.mpr
    refine hF1_idpw.imp_of_mem ?_
    intro a b ham hbm hab n k hn hk
    obtain ⟨na, hna⟩ := hF1_some a ham
    obtain ⟨nb, hnb⟩ := hF1_some b hbm
    rw [idOf_csvRound_pos a na hna (hF1_pos a ham na hna)] at hn
    rw [idOf_csvRound_pos b nb hnb (hF1_pos b hbm nb hnb)] at hk
    injection hn with hn2
    injection hk with hk2
    subst hn2
    subst hk2
    intro hc
    apply hab
    rw [hna, hnb, hc]
  have hF1'_keypw : List.Pairwise (fun a b => recKey a ≠ recKey b) (F1.map csvRound) := by
    apply List.pairwise_map.mpr
    refine hF1_keypw.imp_of_mem ?_
    intro a b ham hbm hab
    rw [recKey_csvRound a (hF1_z a ham), recKey_csvRound b (hF1_z b hbm)]
    exact hab
  obtain ⟨F2, save2, hF2_some, hF2_idpw, hF2_keypw⟩ :=
    save_results_distinct_general (F1.map csvRound) R hne hnew hF1'_idpw
  have hd2eq : F2 = sortBy (fun a b => decide (get_id a ≤ get_id b))
      ((((F1.map csvRound ++ R).foldl saveStep (maxIdInit (F1.map csvRound), [])).2).map (·.2)) := by
    have h2 := save2
    unfold save_results at h2
    rw [if_neg hne] at h2
    exact (Option.some.inj h2).symm
  have hlen1 : ((F1.map csvRound).foldl saveStep (maxIdInit (F1.map csvRound), [])).2.length
      = F1.length := by
    have h2 := saveFold_length_all_new (F1.map csvRound)
      (maxIdInit (F1.map csvRound), []) hF1'_keypw (by intro v _; rfl)
    simpa using h2
  have hlen2 : ((F1.map csvRound ++ R).foldl saveStep
      (maxIdInit (F1.map csvRound), [])).2.length = F1.length := by
    rw [List.foldl_append]
    rw [saveFold_length_found R ((F1.map csvRound).foldl saveStep
      (maxIdInit (F1.map csvRound), [])) ?_, hlen1]
    intro v hv
    obtain ⟨u, huF1, hku⟩ := hcover v hv
    have hku' : recKey (csvRound u) = recKey v := by
      rw [recKey_csvRound u (hF1_z u huF1), hku]
    rw [← hku']
    exact saveFold_all_keys (F1.map csvRound)
      (maxIdInit (F1.map csvRound), []) (csvRound u) (List.mem_map_of_mem csvRound huF1)
  have hF2len : F2.length = F1.length := by
    rw [hd2eq]
    rw [(sortBy_perm _ _).length_eq, List.length_map]
    exact hlen2
  exact ⟨F1, F2, save1, save2, hF2len, hF2_idpw, hF2_keypw⟩

theorem C3_resave_same_records_keeps_rowcount_witness :
    (([[("Название поселка", PyVal.vStr "Поселок Три")]] : List Record) ≠ [] ∧
     (∀ r ∈ ([] : List Record) ++ [[("Название поселка", PyVal.vStr "Поселок Три")]],
        WFrec r) ∧
     (∀ r ∈ ([] : List Record) ++ [[("Название поселка", PyVal.vStr "Поселок Три")]],
        noIntZero r) ∧
     (∀ r ∈ ([[("Название поселка", PyVal.vStr "Поселок Три")]] : List Record),
        idOf r = none)) ∧
    ∃ F1 F2, save_results [] [[("Название поселка", PyVal.vStr "Поселок Три")]] = some F1 ∧
      save_results (F1.map csvRound) [[("Название поселка", PyVal.vStr "Поселок Три")]]
        = some F2 ∧
      F2.length = F1.length ∧
      List.Pairwise (fun a b => idOf a ≠ idOf b) F2 ∧
      List.Pairwise (fun a b => recKey a ≠ recKey b) F2 := by
  have hwf : ∀ r ∈ ([] : List Record) ++ [[("Название поселка", PyVal.vStr "Поселок Три")]],
      WFrec r := by
    intro r hr
    have h : r = [("Название поселка", PyVal.vStr "Поселок Три")] := by simpa using hr
    subst h
    exact ⟨fun n hc => PyVal.noConfusion (Option.some.inj hc),
           fun n hc => Option.noConfusion hc,
           fun n hc => Option.noConfusion hc⟩
  have hz : ∀ r ∈ ([] : List Record) ++ [[("Название поселка", PyVal.vStr "Поселок Три")]],
      noIntZero r := by
    intro r hr
    have h : r = [("Название поселка", PyVal.vStr "Поселок Три")] := by simpa using hr
    subst h
    intro f hc
    simp only [rget] at hc
    split at hc
    · exact PyVal.noConfusion (Option.some.inj hc)
    · exact Option.noConfusion hc
  refine ⟨⟨by decide, hwf, hz, by decide⟩, ?_⟩
  exact C3_resave_same_records_keeps_rowcount []
    [[("Название поселка", PyVal.vStr "Поселок Три")]]
    (by decide) hwf hz (by decide) List.Pairwise.nil (by intro r hr; cases hr)

theorem assess_eq_pts (v : Record) : assess_target_client v =
    (if 4 ≤ housesPt (rget v "Количество домов/участков") +
            daPt (rget v "Наличие ограждения") + daPt (rget v "Наличие КПП") +
            daPt (rget v "Наличие охраны") + statusPt (rget v "Статус поселка")
     then "Целевой"
     else if 2 ≤ housesPt (rget v "Количество домов/участков") +
            daPt (rget v "Наличие ограждения") + daPt (rget v "Наличие КПП") +
            daPt (rget v "Наличие охраны") + statusPt (rget v "Статус поселка")
     then "Требует проверки" else "Нецелевой") := rfl

theorem housesPt_falsy (o : Option PyVal) (h : truthy o = false) : housesPt o = 0 := by
  cases o with
  | none => rfl
  | some x => simp [housesPt, h]

theorem daPt_falsy (o : Option PyVal) (h : truthy o = false) : daPt o = 0 := by
  unfold daPt
  rw [if_neg]
  intro hc
  rw [hc] at h
  exact absurd h (by decide)

theorem statusPt_falsy (o : Option PyVal) (h : truthy o = false) : statusPt o = 0 := by
  cases o with
  | none => rfl
  | some x =>
      cases x with
      | vStr s =>
          have hs : s = "" := by simpa [truthy] using h
          simp [statusPt, hs]
      | vInt n => rfl

theorem parseId_of_falsy (o : Option PyVal) (h : truthy o = false) : parseId o = none := by
  cases o with
  | none => rfl
  | some x =>
      cases x with
      | vStr s =>
          have hs : s = "" := by simpa [truthy] using h
          simp [parseId, hs]
      | vInt n =>
          have hn : n = 0 := by simpa [truthy] using h
          simp [parseId, hn]

theorem assess_target_client_congr (u w : Record)
    (h : ∀ f ∈ ["Количество домов/участков", "Наличие ограждения", "Наличие КПП",
                "Наличие охраны", "Статус поселка"],
       rget u f = rget w f ∨ (truthy (rget u f) = false ∧ truthy (rget w f) = false)) :
    assess_target_client u = assess_target_client w := by
  have c1 : housesPt (rget u "Количество домов/участков")
      = housesPt (rget w "Количество домов/участков") := by
    rcases h "Количество домов/участков" (by simp) with he | ⟨hu, hw⟩
    · rw [he]
    · rw [housesPt_falsy _ hu, housesPt_falsy _ hw]
  have c2 : daPt (rget u "Наличие ограждения") = daPt (rget w "Наличие ограждения") := by
    rcases h "Наличие ограждения" (by simp) with he | ⟨hu, hw⟩
    · rw [he]
    · rw [daPt_falsy _ hu, daPt_falsy _ hw]
  have c3 : daPt (rget u "Наличие КПП") = daPt (rget w "Наличие КПП") := by
    rcases h "Наличие КПП" (by simp) with he | ⟨hu, hw⟩
    · rw [he]
    · rw [daPt_falsy _ hu, daPt_falsy _ hw]
  have c4 : daPt (rget u "Наличие охраны") = daPt (rget w "Наличие охраны") := by
    rcases h "Наличие охраны" (by simp) with he | ⟨hu, hw⟩
    · rw [he]
    · rw [daPt_falsy _ hu, daPt_falsy _ hw]
  have c5 : statusPt (rget u "Статус поселка") = statusPt (rget w "Статус поселка") := by
    rcases h "Статус поселка" (by simp) with he | ⟨hu, hw⟩
    · rw [he]
    · rw [statusPt_falsy _ hu, statusPt_falsy _ hw]
  rw [assess_eq_pts u, assess_eq_pts w, c1, c2, c3, c4, c5]

theorem save_results_single (v : Record) (hv : idOf v = none) :
    save_results [] [v] = some [stampId (stampLead v) 1] := by
  unfold save_results
  rw [if_neg (by simp)]
  simp only [List.nil_append, maxIdInit, List.foldl_nil, List.foldl_cons]
  rw [saveStep_fresh (0, []) v hv]
  norm_num
  simp [dedupInsert, dfind, dset, sortBy, insSorted]

theorem backfill_swap_pointwise (A B : Record) (f : String) (hf : f ∈ FIELDS)
    (hag : truthy (rget A f) = true → truthy (rget B f) = true → rget A f = rget B f) :
    rget (backfill A B) f = rget (backfill B A) f ∨
      (truthy (rget (backfill A B) f) = false ∧ truthy (rget (backfill B A) f) = false ∧
       rget (backfill A B) f = rget A f ∧ rget (backfill B A) f = rget B f) := by
  have hAB := rget_backfill A B f
  have hBA := rget_backfill B A f
  cases hA : truthy (rget A f) <;> cases hB : truthy (rget B f)
  · right
    rw [hAB, if_neg (by simp [hB]), hBA, if_neg (by simp [hA])]
    exact ⟨hA, hB, rfl, rfl⟩
  · left
    rw [hAB, if_pos ⟨hf, hA, hB⟩, hBA, if_neg (by simp [hB])]
  · left
    rw [hAB, if_neg (by simp [hA]), hBA, if_pos ⟨hf, hB, hA⟩]
  · left
    rw [hAB, if_neg (by simp [hA]), hBA, if_neg (by simp [hB])]
    exact hag hA hB

theorem renderRow_congr (u w : Record)
    (h : ∀ f ∈ FIELDS, renderVal (rget u f) = renderVal (rget w f)) :
    renderRow u = renderRow w := by
  unfold renderRow
  exact List.map_congr_left h

/-- C6 (amended): merging two same-key records whose in-run four-field
completeness scores tie and which agree on every field that is non-empty in
both, then persisting, is order-independent: both orders write the single
back-filled union row (with the lead score stamped and the fresh id 1). -/
theorem C6_pair_merge_persist_commutes_on_tie (A B : Record)
    (hk : recKey A = recKey B)
    (hn : nameNorm A ≠ "")
    (htie : scoreOf A scoreFieldsRun = scoreOf B scoreFieldsRun)
    (hag : ∀ f ∈ FIELDS, truthy (rget A f) = true → truthy (rget B f) = true →
      rget A f = rget B f)
    (hidA : truthy (rget A "ID") = false) (hidB : truthy (rget B "ID") = false)
    (hzA : noIntZero A) (hzB : noIntZero B) :
    mergeAndSave [A, B] = some [renderRow (stampId (stampLead (backfill A B)) 1)] ∧
    mergeAndSave [B, A] = some [renderRow (stampId (stampLead (backfill A B)) 1)] := by
  have hnB : nameNorm B ≠ "" := by
    rw [← nameNorm_eq_of_recKey_eq A B hk]
    exact hn
  have hm1 : run_merge [A, B] = [backfill A B] := by
    rw [run_merge_pair A B hn hk, if_neg (by omega)]
  have hm2 : run_merge [B, A] = [backfill B A] := by
    rw [run_merge_pair B A hnB hk.symm, if_neg (by omega)]
  have hidM1 : idOf (backfill A B) = none := by
    unfold idOf
    rw [rget_backfill, if_neg (by simp [hidB])]
    exact parseId_of_falsy _ hidA
  have hidM2 : idOf (backfill B A) = none := by
    unfold idOf
    rw [rget_backfill, if_neg (by simp [hidA])]
    exact parseId_of_falsy _ hidB
  have hpt : ∀ f ∈ FIELDS, renderVal (rget (backfill A B) f)
      = renderVal (rget (backfill B A) f) := by
    intro f hf
    rcases backfill_swap_pointwise A B f hf (hag f hf) with he | ⟨h1, h2, h3, h4⟩
    · rw [he]
    · rw [renderVal_falsy _ h1 (by rw [h3]; exact hzA f),
          renderVal_falsy _ h2 (by rw [h4]; exact hzB f)]
  have hassess : assess_target_client (backfill A B)
      = assess_target_client (backfill B A) := by
    apply assess_target_client_congr
    intro f hf
    have hfF : f ∈ FIELDS := by
      simp only [List.mem_cons, List.not_mem_nil, or_false] at hf
      rcases hf with rfl | rfl | rfl | rfl | rfl <;> decide
    rcases backfill_swap_pointwise A B f hfF (hag f hfF) with he | ⟨h1, h2, _, _⟩
    · exact Or.inl he
    · exact Or.inr ⟨h1, h2⟩
  have hrr : renderRow (stampId (stampLead (backfill B A)) 1)
      = renderRow (stampId (stampLead (backfill A B)) 1) := by
    apply renderRow_congr
    intro f hf
    unfold stampId stampLead
    rw [rget_rset, rget_rset, rget_rset, rget_rset]
    by_cases h1 : "ID" = f
    · rw [if_pos h1, if_pos h1]
    · rw [if_neg h1, if_neg h1]
      by_cases h2 : "Оценка целевого клиента" = f
      · rw [if_pos h2, if_pos h2, hassess]
      · rw [if_neg h2, if_neg h2]
        exact (hpt f hf).symm
  constructor
  · unfold mergeAndSave
    rw [hm1, save_results_single _ hidM1]
    rfl
  · unfold mergeAndSave
    rw [hm2, save_results_single _ hidM2]
    show some [renderRow (stampId (stampLead (backfill B A)) 1)] = _
    rw [hrr]

set_option maxRecDepth 4000 in
/-- C6 (counterexample): two same-key records with disjoint extra non-empty
fields but different in-run completeness scores persist differently depending
on order — the higher scorer arriving second replaces the first wholesale (its
phone is lost), while arriving first it is kept and back-filled (the phone
survives). -/
theorem C6_counterexample_order_dependent_merge :
    mergeAndSave
      [[("Название поселка", PyVal.vStr "Поселок Ветер"),
        ("Телефон основной", PyVal.vStr "+79990001122")],
       [("Название поселка", PyVal.vStr "Поселок Ветер"),
        ("Email", PyVal.vStr "a@b.ru"),
        ("Количество домов/участков", PyVal.vInt 30)]] ≠
    mergeAndSave
      [[("Название поселка", PyVal.vStr "Поселок Ветер"),
        ("Email", PyVal.vStr "a@b.ru"),
        ("Количество домов/участков", PyVal.vInt 30)],
       [("Название поселка", PyVal.vStr "Поселок Ветер"),
        ("Телефон основной", PyVal.vStr "+79990001122")]] := by decide

set_option maxRecDepth 4000 in
theorem C6_pair_merge_persist_commutes_on_tie_witness :
    (recKey [("Название поселка", PyVal.vStr "Поселок Тихий"),
             ("Телефон основной", PyVal.vStr "+79990001122")]
       = recKey [("Название поселка", PyVal.vStr "Поселок Тихий"),
                 ("Email", PyVal.vStr "x@y.ru")] ∧
     nameNorm [("Название поселка", PyVal.vStr "Поселок Тихий"),
               ("Телефон основной", PyVal.vStr "+79990001122")] ≠ "" ∧
     scoreOf [("Название поселка", PyVal.vStr "Поселок Тихий"),
              ("Телефон основной", PyVal.vStr "+79990001122")] scoreFieldsRun
       = scoreOf [("Название поселка", PyVal.vStr "Поселок Тихий"),
                  ("Email", PyVal.vStr "x@y.ru")] scoreFieldsRun) ∧
    mergeAndSave
      [[("Название поселка", PyVal.vStr "Поселок Тихий"),
        ("Телефон основной", PyVal.vStr "+79990001122")],
       [("Название поселка", PyVal.vStr "Поселок Тихий"),
        ("Email", PyVal.vStr "x@y.ru")]] =
    mergeAndSave
      [[("Название поселка", PyVal.vStr "Поселок Тихий"),
        ("Email", PyVal.vStr "x@y.ru")],
       [("Название поселка", PyVal.vStr "Поселок Тихий"),
        ("Телефон основной", PyVal.vStr "+79990001122")]] := by
  have hzA : noIntZero [("Название поселка", PyVal.vStr "Поселок Тихий"),
      ("Телефон основной", PyVal.vStr "+79990001122")] := by
    intro f hc
    simp only [rget] at hc
    split at hc
    · exact PyVal.noConfusion (Option.some.inj hc)
    · split at hc
      · exact PyVal.noConfusion (Option.some.inj hc)
      · exact Option.noConfusion hc
  have hzB : noIntZero [("Название поселка", PyVal.vStr "Поселок Тихий"),
      ("Email", PyVal.vStr "x@y.ru")] := by
    intro f hc
    simp only [rget] at hc
    split at hc
    · exact PyVal.noConfusion (Option.some.inj hc)
    · split at hc
      · exact PyVal.noConfusion (Option.some.inj hc)
      · exact Option.noConfusion hc
  have h := C6_pair_merge_persist_commutes_on_tie
    [("Название поселка", PyVal.vStr "Поселок Тихий"),
     ("Телефон основной", PyVal.vStr "+79990001122")]
    [("Название поселка", PyVal.vStr "Поселок Тихий"),
     ("Email", PyVal.vStr "x@y.ru")]
    (by decide) (by decide) (by decide) (by decide) (by decide) (by decide) hzA hzB
  exact ⟨⟨by decide, by decide, by decide⟩, h.1.trans h.2.symm⟩

set_option maxRecDepth 4000 in
/-- C3 (counterexample): with new records that carry ids, as the parsers
actually produce them (`'ID': self.village_id`, restarting from 1 each run),
re-saving is not clean: an incoming id that collides with a distinct-key
existing row is kept in both runs, so after the second save the file still
holds two rows with id 1 — the claim's "no duplicate ids" conjunct fails. -/
theorem C3_counterexample_duplicate_id_survives_resave :
    ((save_results
        [[("ID", PyVal.vStr "1"), ("Название поселка", PyVal.vStr "Поселок Один")]]
        [[("ID", PyVal.vInt 1), ("Название поселка", PyVal.vStr "Поселок Два")]]).bind
      (fun F1 => save_results (F1.map csvRound)
        [[("ID", PyVal.vInt 1), ("Название поселка", PyVal.vStr "Поселок Два")]])).map
      (fun F2 => F2.map idOf) = some [some 1, some 1] := by decide
